import Mathlib

/-!
Verification of the protocol-adaptation and streaming core of the
`go-pkg-llm` library: the OpenAI/Anthropic/Gemini protocol adapters, the
generic SSE line parser, the streaming aggregator, the message transformer
and the error taxonomy.  Go values of type `map[string]any` (decoded JSON)
are modelled by the inductive `Json` below; `encoding/json.Marshal` and
`Unmarshal` are modelled by the executable serializer `serVal` and the
fuelled recursive-descent decoder `parseVal` (JSON numbers are modelled as
integers).  Unchecked Go type assertions (which panic) are modelled by
`Option`-valued functions returning `none`.
-/

namespace LLMVerify

/-- Model of a decoded JSON value (Go `any` holding
`nil | bool | float64 | string | []any | map[string]any`); numbers are
modelled as integers.  Objects are association lists in key order. -/
inductive Json where
| null : Json
| bool (b : Bool) : Json
| num (n : Int) : Json
| str (s : String) : Json
| arr (elems : List Json) : Json
| obj (fields : List (String × Json)) : Json
deriving Inhabited

/-- Decimal digit character. -/
def digitChar (d : Nat) : Char :=
  match d with
  | 0 => '0'
  | 1 => '1'
  | 2 => '2'
  | 3 => '3'
  | 4 => '4'
  | 5 => '5'
  | 6 => '6'
  | 7 => '7'
  | 8 => '8'
  | 9 => '9'
  | _ => '0'

/-- Decimal digits of a natural number, most significant first. -/
def natDigits (n : Nat) : List Char :=
  if _h : n < 10 then [digitChar n]
  else natDigits (n / 10) ++ [digitChar (n % 10)]
termination_by n
decreasing_by exact Nat.div_lt_self (by omega) (by omega)

/-- Serialization of an integer in Go `encoding/json` style. -/
def serInt (n : Int) : List Char :=
  if n < 0 then '-' :: natDigits n.natAbs else natDigits n.natAbs

/-- Lower-case hexadecimal digit character. -/
def hexDigitChar (d : Nat) : Char :=
  match d with
  | 0 => '0'
  | 1 => '1'
  | 2 => '2'
  | 3 => '3'
  | 4 => '4'
  | 5 => '5'
  | 6 => '6'
  | 7 => '7'
  | 8 => '8'
  | 9 => '9'
  | 10 => 'a'
  | 11 => 'b'
  | 12 => 'c'
  | 13 => 'd'
  | 14 => 'e'
  | 15 => 'f'
  | _ => '0'

/-- JSON string escaping of one character (quote, backslash, and control
characters as in Go`s encoder). -/
def escapeChar (c : Char) : List Char :=
  if c = '"' then ['\\', '"']
  else if c = '\\' then ['\\', '\\']
  else if c.toNat < 32 then
    ['\\', 'u', '0', '0', hexDigitChar (c.toNat / 16), hexDigitChar (c.toNat % 16)]
  else [c]

/-- JSON string escaping of a character sequence. -/
def escapeChars (s : List Char) : List Char := s.flatMap escapeChar

/-- Serialization of a JSON string, quotes included. -/
def serStr (s : String) : List Char := '"' :: (escapeChars s.data ++ ['"'])

mutual

/-- Compact serialization of a JSON value (model of Go `json.Marshal` on the
values the core emits). -/
def serVal : Json → List Char
| .null => "null".data
| .bool true => "true".data
| .bool false => "false".data
| .num n => serInt n
| .str s => serStr s
| .arr [] => ['[', ']']
| .arr (x :: xs) => '[' :: (serElemsNE x xs ++ [']'])
| .obj [] => ['\x7b', '\x7d']
| .obj (f :: fs) => '\x7b' :: (serFieldsNE f fs ++ ['\x7d'])
termination_by j => sizeOf j

/-- Comma-separated serialization of a non-empty element list. -/
def serElemsNE : Json → List Json → List Char
| x, [] => serVal x
| x, y :: ys => serVal x ++ ',' :: serElemsNE y ys
termination_by x xs => 1 + sizeOf x + sizeOf xs

/-- Comma-separated serialization of a non-empty field list. -/
def serFieldsNE : (String × Json) → List (String × Json) → List Char
| (k, v), [] => serStr k ++ ':' :: serVal v
| (k, v), g :: gs => (serStr k ++ ':' :: serVal v) ++ ',' :: serFieldsNE g gs
termination_by f fs => 1 + sizeOf f + sizeOf fs

end

/-- Is `c` a decimal digit character. -/
def isDigitChar (c : Char) : Bool := 48 ≤ c.toNat && c.toNat ≤ 57

/-- Value of a hexadecimal digit character (upper or lower case). -/
def hexVal (c : Char) : Option Nat :=
  if 48 ≤ c.toNat && c.toNat ≤ 57 then some (c.toNat - 48)
  else if 97 ≤ c.toNat && c.toNat ≤ 102 then some (c.toNat - 87)
  else if 65 ≤ c.toNat && c.toNat ≤ 70 then some (c.toNat - 55)
  else none

/-- Consume an expected literal character sequence. -/
def dropLit : List Char → List Char → Option (List Char)
| [], input => some input
| _ :: _, [] => none
| p :: ps, c :: cs => if c = p then dropLit ps cs else none

/-- Parse the body of a JSON string after the opening quote, returning the
unescaped characters and the input after the closing quote. -/
def parseStringChars : (l : List Char) → Option (List Char × List Char)
| [] => none
| c :: rest =>
  if c = '"' then some ([], rest)
  else if c = '\\' then
    match rest with
    | [] => none
    | e :: rest2 =>
      if e = '"' then (parseStringChars rest2).map (fun p => ('"' :: p.1, p.2))
      else if e = '\\' then (parseStringChars rest2).map (fun p => ('\\' :: p.1, p.2))
      else if e = '/' then (parseStringChars rest2).map (fun p => ('/' :: p.1, p.2))
      else if e = 'n' then (parseStringChars rest2).map (fun p => ('\n' :: p.1, p.2))
      else if e = 't' then (parseStringChars rest2).map (fun p => ('\t' :: p.1, p.2))
      else if e = 'r' then (parseStringChars rest2).map (fun p => ('\x0d' :: p.1, p.2))
      else if e = 'b' then (parseStringChars rest2).map (fun p => ('\x08' :: p.1, p.2))
      else if e = 'f' then (parseStringChars rest2).map (fun p => ('\x0c' :: p.1, p.2))
      else if e = 'u' then
        match rest2 with
        | h1 :: h2 :: h3 :: h4 :: rest3 =>
          match hexVal h1, hexVal h2, hexVal h3, hexVal h4 with
          | some a, some b, some c2, some d =>
            (parseStringChars rest3).map
              (fun p => (Char.ofNat (4096 * a + 256 * b + 16 * c2 + d) :: p.1, p.2))
          | _, _, _, _ => none
        | _ => none
      else none
  else (parseStringChars rest).map (fun p => (c :: p.1, p.2))

/-- Accumulate a run of decimal digits, most significant first. -/
def parseDigits : Nat → List Char → Nat × List Char
| acc, [] => (acc, [])
| acc, c :: rest =>
  if isDigitChar c then parseDigits (10 * acc + (c.toNat - 48)) rest
  else (acc, c :: rest)

mutual

/-- Fuelled recursive-descent decoder for compact JSON (model of Go
`json.Unmarshal` on the payloads this library produces and consumes). -/
def parseVal : Nat → List Char → Option (Json × List Char)
| 0, _ => none
| _ + 1, [] => none
| fuel + 1, c :: rest =>
  if c = 'n' then (dropLit ['u', 'l', 'l'] rest).map (fun r => (Json.null, r))
  else if c = 't' then (dropLit ['r', 'u', 'e'] rest).map (fun r => (Json.bool true, r))
  else if c = 'f' then (dropLit ['a', 'l', 's', 'e'] rest).map (fun r => (Json.bool false, r))
  else if c = '"' then
    (parseStringChars rest).map (fun p => (Json.str (String.mk p.1), p.2))
  else if c = '[' then
    match rest with
    | [] => none
    | r0 :: rs =>
      if r0 = ']' then some (Json.arr [], rs)
      else (parseElems fuel (r0 :: rs)).map (fun p => (Json.arr p.1, p.2))
  else if c = '\x7b' then
    match rest with
    | [] => none
    | r0 :: rs =>
      if r0 = '\x7d' then some (Json.obj [], rs)
      else (parseFields fuel (r0 :: rs)).map (fun p => (Json.obj p.1, p.2))
  else if c = '-' then
    match rest with
    | [] => none
    | r0 :: rs =>
      if isDigitChar r0 then
        let p := parseDigits 0 (r0 :: rs)
        some (Json.num (-(p.1 : Int)), p.2)
      else none
  else if isDigitChar c then
    let p := parseDigits 0 (c :: rest)
    some (Json.num (p.1 : Int), p.2)
  else none

/-- Parse the elements of a non-empty JSON array up to the closing bracket. -/
def parseElems : Nat → List Char → Option (List Json × List Char)
| 0, _ => none
| fuel + 1, input =>
  match parseVal fuel input with
  | none => none
  | some (v, r) =>
    match r with
    | [] => none
    | d :: r2 =>
      if d = ',' then (parseElems fuel r2).map (fun p => (v :: p.1, p.2))
      else if d = ']' then some ([v], r2)
      else none

/-- Parse the fields of a non-empty JSON object up to the closing brace. -/
def parseFields : Nat → List Char → Option (List (String × Json) × List Char)
| 0, _ => none
| fuel + 1, input =>
  match input with
  | [] => none
  | c :: rest =>
    if c = '"' then
      match parseStringChars rest with
      | none => none
      | some (k, r) =>
        match r with
        | [] => none
        | d :: r2 =>
          if d = ':' then
            match parseVal fuel r2 with
            | none => none
            | some (v, r3) =>
              match r3 with
              | [] => none
              | e :: r4 =>
                if e = ',' then (parseFields fuel r4).map (fun p => ((String.mk k, v) :: p.1, p.2))
                else if e = '\x7d' then some ([(String.mk k, v)], r4)
                else none
          else none
    else none

end

/-- Decode a complete JSON document (model of `json.Unmarshal` into `any`):
the whole input must be consumed. -/
def decodeJson (s : List Char) : Option Json :=
  match parseVal (s.length + 1) s with
  | some (v, []) => some v
  | _ => none

/-- Model of `json.Marshal` applied to a Go `map[string]any` value that may
be `nil` (`nil` marshals to the JSON document `null`). -/
def encodeArgs : Option (List (String × Json)) → List Char
| none => serVal Json.null
| some fields => serVal (Json.obj fields)

/-- Model of `json.Unmarshal` of a document into a `map[string]any` variable:
the variable ends up `nil` unless the document is an object (decode errors
are discarded by the callers, leaving the variable `nil`). -/
def decodeArgs (s : List Char) : Option (List (String × Json)) :=
  match decodeJson s with
  | some (Json.obj fields) => some fields
  | _ => none

/-- Does the input start with a decimal digit. -/
def headIsDigit : List Char → Bool
| [] => false
| c :: _ => isDigitChar c

/-- The digit-fold step used by `parseDigits`. -/
def digitStep (a : Nat) (c : Char) : Nat := 10 * a + (c.toNat - 48)

/-- Message role (`llm.Role`). -/
inductive Role where
| system
| user
| assistant
| tool
deriving DecidableEq

/-- String form of a role (Go `string(msg.Role)`). -/
def roleString : Role → String
| .system => "system"
| .user => "user"
| .assistant => "assistant"
| .tool => "tool"

/-- `llm.ToolCall` content block; `Input` is a Go `map[string]any` that may be
`nil` (modelled by `none`). -/
structure GoToolCall where
  id : String
  name : String
  input : Option (List (String × Json))

/-- `llm.ToolResultBlock`. -/
structure GoToolResult where
  toolUseID : String
  content : String
  isError : Bool

/-- `llm.ContentBlock` tagged variants. -/
inductive ContentBlock where
| text (text : String)
| toolCall (tc : GoToolCall)
| toolResult (tr : GoToolResult)
| thinking (thinking : String)

/-- `llm.Message`: `content` is the plain-text field (Go zero value `""`). -/
structure Message where
  role : Role
  content : String
  contentBlocks : List ContentBlock

/-- Lookup in a decoded JSON object (Go map indexing). -/
def lookupList : List (String × Json) → String → Option Json
| [], _ => none
| (k, v) :: rest, key => if k = key then some v else lookupList rest key

/-- Model of `core.GetString`: a string value passes through, anything else
becomes the empty string. -/
def getString : Option Json → String
| some (Json.str s) => s
| _ => ""

/-- One wire tool call in OpenAI format (the `type` field is always the
constant `"function"`). -/
structure OAToolCall where
  id : String
  name : String
  arguments : String
deriving DecidableEq

/-- One OpenAI wire message `{role, content?, tool_calls?, tool_call_id?}`;
an empty `toolCalls` list models an absent `tool_calls` key. -/
structure OAWireMsg where
  role : String
  content : Option String
  toolCalls : List OAToolCall
  toolCallID : Option String
deriving DecidableEq

/-- Model of `openai.hasToolResults`. -/
def hasToolResults (blocks : List ContentBlock) : Bool :=
  blocks.any fun b =>
    match b with
    | .toolResult _ => true
    | _ => false

/-- Model of `openai.extractTextContent`: the first `TextBlock` wins (even if
empty), else the `Content` field. -/
def extractTextContent (msg : Message) : String :=
  match msg.contentBlocks.findSome? (fun b =>
    match b with
    | .text t => some t
    | _ => none) with
  | some t => t
  | none => msg.content

/-- Model of `openai.extractToolCalls`: tool arguments are serialized to a
JSON string. -/
def extractToolCalls (blocks : List ContentBlock) : List OAToolCall :=
  blocks.filterMap fun b =>
    match b with
    | .toolCall tc =>
      some { id := tc.id, name := tc.name, arguments := String.mk (encodeArgs tc.input) }
    | _ => none

/-- Per-message body of `openai.Adapter.ConvertToAPI`. -/
def convertMsgOpenAI (msg : Message) : List OAWireMsg :=
  if msg.role = .system then []
  else if hasToolResults msg.contentBlocks then
    msg.contentBlocks.filterMap fun b =>
      match b with
      | .toolResult tr =>
        some { role := "tool", content := some tr.content, toolCalls := [],
               toolCallID := some tr.toolUseID }
      | _ => none
  else
    let contentStr := extractTextContent msg
    let tcs := if msg.role = .assistant then extractToolCalls msg.contentBlocks else []
    let content : Option String :=
      if contentStr ≠ "" then some contentStr
      else if tcs ≠ [] then some ""
      else none
    [{ role := roleString msg.role, content := content, toolCalls := tcs, toolCallID := none }]

/-- Model of `openai.Adapter.ConvertToAPI` (the Go loop appends the
translation of each message independently, in order). -/
def convertToAPIOpenAI (messages : List Message) : List OAWireMsg :=
  messages.flatMap convertMsgOpenAI

/-- Translation of one element of a response `tool_calls` array (the loop
body of `ConvertFromAPI`); `none` models the Go panic when the element or
its `function` field is not an object. -/
def oaToolCallBlock (tc : Json) : Option ContentBlock :=
  match tc with
  | Json.obj tcMap =>
    match lookupList tcMap "function" with
    | some (Json.obj fn) =>
      let args : Option (List (String × Json)) :=
        match lookupList fn "arguments" with
        | some (Json.str argsStr) => decodeArgs argsStr.data
        | _ => none
      some (ContentBlock.toolCall
        { id := getString (lookupList tcMap "id"),
          name := getString (lookupList fn "name"),
          input := args })
    | _ => none
  | _ => none

/-- Does one `tool_calls` element satisfy the type assertions of
`ConvertFromAPI` (an object whose `function` field is an object). -/
def oaToolCallOk (tc : Json) : Bool :=
  match tc with
  | Json.obj tcMap =>
    match lookupList tcMap "function" with
    | some (Json.obj _) => true
    | _ => false
  | _ => false

/-- The `message` object of a choice (`choice["message"].(map[string]any)`
with the ok-checked assertion: a missing or non-object field leaves a nil
map, modelled by the empty association list). -/
def oaMessageData (choice : List (String × Json)) : List (String × Json) :=
  match lookupList choice "message" with
  | some (Json.obj m) => m
  | _ => []

/-- Body of `openai.Adapter.ConvertFromAPI` for an object-valued
`choices[0]`. -/
def oaFromChoice (choice : List (String × Json)) : Option (Message × String) :=
  let finishReason : String :=
    match lookupList choice "finish_reason" with
    | some (Json.str s) => s
    | _ => ""
  let content : String :=
    match lookupList (oaMessageData choice) "content" with
    | some (Json.str s) => s
    | _ => ""
  match lookupList (oaMessageData choice) "tool_calls" with
  | some (Json.arr tcs) =>
    match tcs.mapM oaToolCallBlock with
    | none => none
    | some tcBlocks =>
      let blocks := (if content ≠ "" then [ContentBlock.text content] else []) ++ tcBlocks
      some ({ role := .assistant, content := "", contentBlocks := blocks }, finishReason)
  | _ => some ({ role := .assistant, content := content, contentBlocks := [] }, finishReason)

/-- Model of `openai.Adapter.ConvertFromAPI`.  The result is `none` exactly
when the Go code panics on an unchecked type assertion (`choices[0]`, a
`tool_calls` element, or a `function` field that is not a JSON object). -/
def convertFromAPIOpenAI (resp : List (String × Json)) : Option (Message × String) :=
  match lookupList resp "choices" with
  | some (Json.arr (c0 :: _)) =>
    match c0 with
    | Json.obj choice => oaFromChoice choice
    | _ => none
  | _ => some ({ role := .assistant, content := "", contentBlocks := [] }, "")

/-- One typed block of an Anthropic wire message
(`{type:"text"|"tool_use"|"tool_result", ...}`). -/
inductive ABlock where
| text (text : String)
| toolUse (id name : String) (input : Option (List (String × Json)))
| toolResult (toolUseID content : String)

/-- One Anthropic wire message: `content` is always an array of typed
blocks. -/
structure AWireMsg where
  role : String
  content : List ABlock

/-- Block translation loop of `anthropic.Adapter.ConvertToAPI`
(`ThinkingBlock`s are skipped). -/
def anthropicBlocks (blocks : List ContentBlock) : List ABlock :=
  blocks.filterMap fun b =>
    match b with
    | .text t => some (.text t)
    | .toolCall tc => some (.toolUse tc.id tc.name tc.input)
    | .toolResult tr => some (.toolResult tr.toolUseID tr.content)
    | .thinking _ => none

/-- Wire content of one neutral message under the Anthropic adapter:
`ContentBlocks` wins when present, else a non-empty `Content` string. -/
def anthropicContent (msg : Message) : List ABlock :=
  match msg.contentBlocks with
  | _ :: _ => anthropicBlocks msg.contentBlocks
  | [] => if msg.content ≠ "" then [.text msg.content] else []

/-- Per-message body of `anthropic.Adapter.ConvertToAPI`: system messages are
skipped and a message whose wire content is empty is dropped. -/
def convertMsgAnthropic (msg : Message) : List AWireMsg :=
  if msg.role = .system then []
  else
    match anthropicContent msg with
    | [] => []
    | b :: bs => [{ role := roleString msg.role, content := b :: bs }]

/-- Model of `anthropic.Adapter.ConvertToAPI`. -/
def convertToAPIAnthropic (messages : List Message) : List AWireMsg :=
  messages.flatMap convertMsgAnthropic

/-- `core.SystemMessageStrategy`. -/
inductive SystemStrategy where
| inline
| separate
deriving DecidableEq

/-- Model of `core.Transformer.BuildAPIMessages`, generic over the adapter`s
`ConvertToAPI` (wire messages are JSON objects). -/
def buildAPIMessages (convert : List Message → List Json) (strategy : SystemStrategy)
    (messages : List Message) (systemPrompt : String) : List Json :=
  let userMessages := messages.filter (fun m => ¬ m.role = .system)
  let apiMsgs := convert userMessages
  if systemPrompt ≠ "" then
    match strategy with
    | .inline =>
      Json.obj [("role", Json.str "system"), ("content", Json.str systemPrompt)] :: apiMsgs
    | .separate => apiMsgs
  else apiMsgs

/-- A Go error value for the retryability analysis: an `*APIError` with a
status code, or any other error; both may wrap a cause
(`errors.As` walks the `Unwrap` chain). -/
inductive GoError where
| api (statusCode : Int) (cause : Option GoError)
| other (cause : Option GoError)

/-- Model of `errors.As(err, **APIError)`: status of the first `APIError`
in the unwrap chain. -/
def getAPIStatus : GoError → Option Int
| .api s _ => some s
| .other (some e) => getAPIStatus e
| .other none => none

/-- Model of `(*APIError).IsRetryable`. -/
def isRetryableStatus (s : Int) : Bool := s == 429 || (500 ≤ s && s ≤ 504)

/-- Model of `llm.IsRetryableError`. -/
def isRetryableError (e : GoError) : Bool :=
  match getAPIStatus e with
  | some s => isRetryableStatus s
  | none => false

/-- `llm.ToolCallDelta` (Go `int` index modelled as `Int`). -/
structure ToolCallDelta where
  index : Int
  id : String
  name : String
  argumentsDelta : String
deriving DecidableEq

/-- `llm.Event` tagged variants relevant to the streaming core. -/
inductive Event where
| text (delta : String)
| reasoning (delta : String)
| thinking (delta : String)
| toolCall (tc : ToolCallDelta)
| toolResult
| done (finishReason : String)
| error
deriving DecidableEq

/-- `openai.toolBuffer`. -/
structure ToolBuffer where
  id : String
  name : String
  argsBuf : String

/-- `openai.StreamParser` mutable state (`toolBufs` is a `map[int]*toolBuffer`). -/
structure StreamParserState where
  textBuf : String
  reasoningBuf : String
  toolBufs : Int → Option ToolBuffer
  maxIndex : Int

/-- Fresh stream parser (`openai.NewStreamParser`). -/
def initStreamState : StreamParserState :=
  { textBuf := "", reasoningBuf := "", toolBufs := fun _ => none, maxIndex := 0 }

/-- Model of `StreamParser.handleToolCall`. -/
def handleToolCall (s : StreamParserState) (tc : ToolCallDelta) : StreamParserState :=
  let buf := (s.toolBufs tc.index).getD { id := "", name := "", argsBuf := "" }
  let buf2 : ToolBuffer :=
    { id := if tc.id ≠ "" then tc.id else buf.id,
      name := if tc.name ≠ "" then tc.name else buf.name,
      argsBuf := if tc.argumentsDelta ≠ "" then buf.argsBuf ++ tc.argumentsDelta else buf.argsBuf }
  { s with
    toolBufs := fun j => if j = tc.index then some buf2 else s.toolBufs j,
    maxIndex := if tc.index > s.maxIndex then tc.index else s.maxIndex }

/-- One step of `StreamParser.Parse` (state plus last `done` reason). -/
def parseStep (p : StreamParserState × String) (e : Event) : StreamParserState × String :=
  match e with
  | .text d => ({ p.1 with textBuf := p.1.textBuf ++ d }, p.2)
  | .reasoning d => ({ p.1 with reasoningBuf := p.1.reasoningBuf ++ d }, p.2)
  | .toolCall tc => (handleToolCall p.1 tc, p.2)
  | .done r => (p.1, r)
  | _ => p

/-- Model of `StreamParser.buildMessage`: tool calls are emitted for indices
`0 .. maxIndex` in ascending order; buckets without an id are skipped, and
the argument buffer is JSON-decoded (`nil` input on failure). -/
def buildMessage (s : StreamParserState) : Message :=
  let idxs : List Nat := if s.maxIndex < 0 then [] else List.range (s.maxIndex.toNat + 1)
  let toolBlocks := idxs.filterMap fun i =>
    match s.toolBufs (i : Int) with
    | none => none
    | some buf =>
      if buf.id = "" then none
      else some (ContentBlock.toolCall
        { id := buf.id, name := buf.name, input := decodeArgs buf.argsBuf.data })
  let blocks := (if s.textBuf ≠ "" then [ContentBlock.text s.textBuf] else []) ++ toolBlocks
  { role := .assistant, content := "", contentBlocks := blocks }

/-- `openai.StreamResult`. -/
structure StreamResult where
  message : Message
  finishReason : String
  reasoning : String

/-- Model of `openai.StreamParser.Parse` on a finite event sequence. -/
def parseEvents (evs : List Event) : StreamResult :=
  let p := evs.foldl parseStep (initStreamState, "")
  { message := buildMessage p.1, finishReason := p.2, reasoning := p.1.reasoningBuf }

/-- `core.EventHandler` interface: per-frame semantics of one vendor.
`handleEvent` returns `none` where the Go implementation would panic. -/
structure SSEHandler where
  shouldStopOnData : String → Bool
  handleEvent : String → List (String × Json) → Option (List Event × Bool)

/-- Model of `core.SSEParser.Parse` over a finite list of input lines.
`decode` models `json.Unmarshal` of one data payload into a
`map[string]any` (failure is skipped silently).  The result lists the
events sent to the channel and whether parsing stopped before the end of
the input (the channel is closed in every case); `none` models a handler
panic. -/
def sseParse (h : SSEHandler) (decode : String → Option (List (String × Json))) :
    List String → String → Option (List Event × Bool)
| [], _ => some ([], false)
| line :: rest, currentEvent =>
  if "event: ".data.isPrefixOf line.data then
    sseParse h decode rest (String.mk (line.data.drop 7))
  else if "data: ".data.isPrefixOf line.data then
    let data := String.mk (line.data.drop 6)
    if h.shouldStopOnData data then some ([Event.done "stop"], true)
    else
      match decode data with
      | none => sseParse h decode rest currentEvent
      | some payload =>
        match h.handleEvent currentEvent payload with
        | none => none
        | some (evs, stop) =>
          if stop then some (evs, true)
          else (sseParse h decode rest currentEvent).map (fun p => (evs ++ p.1, p.2))
  else sseParse h decode rest currentEvent

/-- Model of `openai.EventHandler.ShouldStopOnData`. -/
def oaShouldStopOnData (data : String) : Bool := data == "[DONE]"

/-- Translation of one element of `choices[0].delta.tool_calls` into a
`ToolCallDelta` (the element is already known to be an object). -/
def oaToolCallDelta (tcMap : List (String × Json)) : ToolCallDelta :=
  let idx : Int :=
    match lookupList tcMap "index" with
    | some (Json.num n) => n
    | _ => 0
  let id : String :=
    match lookupList tcMap "id" with
    | some (Json.str s) => s
    | _ => ""
  let fn : List (String × Json) :=
    match lookupList tcMap "function" with
    | some (Json.obj m) => m
    | _ => []
  { index := idx, id := id,
    name := match lookupList fn "name" with
            | some (Json.str s) => s
            | _ => "",
    argumentsDelta := match lookupList fn "arguments" with
                      | some (Json.str s) => s
                      | _ => "" }

/-- Text event of an OpenAI delta (`choices[0].delta.content`, skipping
empty strings). -/
def oaTextEvs (delta : List (String × Json)) : List Event :=
  match lookupList delta "content" with
  | some (Json.str content) => if content ≠ "" then [Event.text content] else []
  | _ => []

/-- Reasoning event of an OpenAI delta (`choices[0].delta.reasoning_content`,
skipping empty strings). -/
def oaReasoningEvs (delta : List (String × Json)) : List Event :=
  match lookupList delta "reasoning_content" with
  | some (Json.str rc) => if rc ≠ "" then [Event.reasoning rc] else []
  | _ => []

/-- Delta processing of `openai.EventHandler.HandleEvent` (no finish
reason in the frame); `none` models the panic on a non-object
`tool_calls` element. -/
def oaHandleDelta (choice : List (String × Json)) : Option (List Event × Bool) :=
  match lookupList choice "delta" with
  | some (Json.obj delta) =>
    match lookupList delta "tool_calls" with
    | some (Json.arr tcs) =>
      match tcs.mapM (fun tc =>
        match tc with
        | Json.obj tcMap => some (Event.toolCall (oaToolCallDelta tcMap))
        | _ => none) with
      | none => none
      | some tcEvs => some (oaTextEvs delta ++ oaReasoningEvs delta ++ tcEvs, false)
    | _ => some (oaTextEvs delta ++ oaReasoningEvs delta, false)
  | _ => some ([], false)

/-- Model of `openai.EventHandler.HandleEvent`; `none` models the panic on a
non-object `choices[0]`. -/
def oaHandleEvent (_eventType : String) (data : List (String × Json)) :
    Option (List Event × Bool) :=
  match lookupList data "choices" with
  | some (Json.arr (c0 :: _)) =>
    match c0 with
    | Json.obj choice =>
      match lookupList choice "finish_reason" with
      | some (Json.str fr) =>
        if fr ≠ "" then some ([Event.done fr], false)
        else oaHandleDelta choice
      | _ => oaHandleDelta choice
    | _ => none
  | _ => some ([], false)

/-- The OpenAI SSE handler pair. -/
def oaHandler : SSEHandler :=
  { shouldStopOnData := oaShouldStopOnData, handleEvent := oaHandleEvent }

/-- The letter suffix of a synthesized Gemini tool-call id
(`string(rune('a' + counter % 26))`). -/
def letterOf (k : Nat) : String := String.mk [Char.ofNat (97 + k % 26)]

/-- Model of `gemini.generateStreamToolCallID`: increment the counter, then
derive the id from it. -/
def generateStreamToolCallID (counter : Nat) : String × Nat :=
  ("gemini_call_" ++ letterOf (counter + 1), counter + 1)

/-- Model of `gemini.mapFinishReasonForEvent`. -/
def mapFinishReasonForEvent (reason : String) : String :=
  if reason = "STOP" then "stop"
  else if reason = "MAX_TOKENS" then "length"
  else if reason = "SAFETY" then "content_filter"
  else if reason = "RECITATION" then "content_filter"
  else if reason = "OTHER" then "stop"
  else reason

/-- Text or thinking events of one Gemini part (the `thought:true` flag
selects a thinking event; empty text emits nothing). -/
def geminiTextEvs (pm : List (String × Json)) : List Event :=
  let isThought : Bool :=
    match lookupList pm "thought" with
    | some (Json.bool b) => b
    | _ => false
  match lookupList pm "text" with
  | some (Json.str t) =>
    if t ≠ "" then (if isThought then [Event.thinking t] else [Event.text t]) else []
  | _ => []

/-- The per-part loop of `gemini.EventHandler.HandleEvent`, threading the
process-wide id counter (`i` is the part index). -/
def geminiParts (i : Nat) (counter : Nat) : List Json → List Event × Nat
| [] => ([], counter)
| p :: ps =>
  match p with
  | Json.obj pm =>
    let textEvs : List Event := geminiTextEvs pm
    match lookupList pm "functionCall" with
    | some (Json.obj fc) =>
      let args : Option (List (String × Json)) :=
        match lookupList fc "args" with
        | some (Json.obj a) => some a
        | _ => none
      let argsDelta : String :=
        match args with
        | some a => String.mk (serVal (Json.obj a))
        | none => ""
      let idc := generateStreamToolCallID counter
      let tail := geminiParts (i + 1) idc.2 ps
      (textEvs ++ Event.toolCall
        { index := (i : Int), id := idc.1,
          name := getString (lookupList fc "name"),
          argumentsDelta := argsDelta } :: tail.1, tail.2)
    | _ =>
      let tail := geminiParts (i + 1) counter ps
      (textEvs ++ tail.1, tail.2)
  | _ =>
    let tail := geminiParts (i + 1) counter ps
    (tail.1, tail.2)

/-- Content processing of `gemini.EventHandler.HandleEvent` (no finish
reason in the frame). -/
def geminiContent (counter : Nat) (cand : List (String × Json)) :
    Option (List Event × Bool × Nat) :=
  match lookupList cand "content" with
  | some (Json.obj content) =>
    match lookupList content "parts" with
    | some (Json.arr parts) =>
      match parts with
      | [] => some ([], false, counter)
      | _ =>
        let r := geminiParts 0 counter parts
        some (r.1, false, r.2)
    | _ => some ([], false, counter)
  | _ => some ([], false, counter)

/-- Model of `gemini.EventHandler.HandleEvent`; `none` models the panic on a
non-object `candidates[0]`, and the returned `Bool` is the stop signal. -/
def geminiHandleEvent (counter : Nat) (data : List (String × Json)) :
    Option (List Event × Bool × Nat) :=
  match lookupList data "candidates" with
  | some (Json.arr (c0 :: _)) =>
    match c0 with
    | Json.obj cand =>
      match lookupList cand "finishReason" with
      | some (Json.str fr) =>
        if fr ≠ "" then some ([Event.done (mapFinishReasonForEvent fr)], true, counter)
        else geminiContent counter cand
      | _ => geminiContent counter cand
    | _ => none
  | _ => some ([], false, counter)

/-- One Gemini stream: the SSE parse loop applied to the already-decoded
frames, threading the id counter and honouring the handler`s stop signal. -/
def runGeminiFrames (counter : Nat) : List (List (String × Json)) → Option (List Event × Nat)
| [] => some ([], counter)
| f :: fs =>
  match geminiHandleEvent counter f with
  | none => none
  | some (evs, stop, c2) =>
    if stop then some (evs, c2)
    else (runGeminiFrames c2 fs).map (fun p => (evs ++ p.1, p.2))

/-- Ids of the tool-call events of a stream, in emission order. -/
def toolCallIds (evs : List Event) : List String :=
  evs.filterMap fun e =>
    match e with
    | .toolCall tc => some tc.id
    | _ => none


/-- Do the type assertions of `oaFromChoice` hold for one choice object. -/
def oaChoiceOk (choice : List (String × Json)) : Bool :=
  match lookupList (oaMessageData choice) "tool_calls" with
  | some (Json.arr tcs) => tcs.all oaToolCallOk
  | _ => true

/-- Boolean wellformedness of a decoded OpenAI response under which
`ConvertFromAPI` cannot hit an unchecked type assertion: when `choices` is a
non-empty array its first element is an object, and when
`message.tool_calls` is an array every element is an object whose
`function` field is an object. -/
def oaRespOk (resp : List (String × Json)) : Bool :=
  match lookupList resp "choices" with
  | some (Json.arr (c0 :: _)) =>
    match c0 with
    | Json.obj choice => oaChoiceOk choice
    | _ => false
  | _ => true

/-- The tool-call deltas of an event sequence, in arrival order. -/
def toolDeltas (evs : List Event) : List ToolCallDelta :=
  evs.filterMap fun e =>
    match e with
    | .toolCall tc => some tc
    | _ => none

/-- Modelled from the spec (§4.5): the last non-empty value observed in a
sequence of field values. -/
def lastNonEmpty (xs : List String) : String :=
  xs.foldl (fun a x => if x ≠ "" then x else a) ""

/-- Concatenation of string fragments in arrival order. -/
def concatAll (xs : List String) : String :=
  xs.foldl (fun a x => a ++ x) ""

/-- Modelled from the spec (§4.5): the bucket of tool-call deltas at one
index — id and name take the last non-empty value observed, argument
fragments concatenate in arrival order. -/
def specBucket (tcs : List ToolCallDelta) (i : Int) : ToolBuffer :=
  let atIdx := tcs.filter (fun tc => tc.index = i)
  { id := lastNonEmpty (atIdx.map (fun tc => tc.id)),
    name := lastNonEmpty (atIdx.map (fun tc => tc.name)),
    argsBuf := concatAll (atIdx.map (fun tc => tc.argumentsDelta)) }

/-- Modelled from the spec (§4.5): the observed bucket indices in ascending
order. -/
def observedIndices (tcs : List ToolCallDelta) : List Int :=
  ((tcs.map (fun tc => tc.index)).dedup).insertionSort (· ≤ ·)

/-- Modelled from the spec (§4.5): one `ToolCall` block per bucket in
ascending index order; buckets whose id never arrived are dropped, and
argument fragments that fail to JSON-decode yield a null input. -/
def specToolBlocks (tcs : List ToolCallDelta) : List ContentBlock :=
  (observedIndices tcs).filterMap fun i =>
    let b := specBucket tcs i
    if b.id = "" then none
    else some (ContentBlock.toolCall
      { id := b.id, name := b.name, input := decodeArgs b.argsBuf.data })

/-- Concatenation of the text deltas of a stream. -/
def specTextCat (evs : List Event) : String :=
  concatAll (evs.filterMap fun e =>
    match e with
    | .text d => some d
    | _ => none)

/-- Modelled from the spec (§4.5): the aggregated message — an optional
`TextBlock` followed by the bucketed tool calls in ascending index order. -/
def specAggregate (evs : List Event) : Message :=
  { role := .assistant, content := "",
    contentBlocks :=
      (if specTextCat evs ≠ "" then [ContentBlock.text (specTextCat evs)] else []) ++
        specToolBlocks (toolDeltas evs) }

/-- The running maximum index of the stream parser (`maxIndex` after feeding
a delta sequence). -/
def maxIndexOf (tcs : List ToolCallDelta) : Int :=
  tcs.foldl (fun m tc => if tc.index > m then tc.index else m) 0

/-- A Gemini part carrying one `functionCall` (name only, no args). -/
def gemFCPart : Json := Json.obj [("functionCall", Json.obj [("name", Json.str "f")])]

/-- A decoded Gemini frame whose single candidate holds 27 functionCall
parts. -/
def gemFrame27 : List (String × Json) :=
  [("candidates", Json.arr [Json.obj [("content",
      Json.obj [("parts", Json.arr (List.replicate 27 gemFCPart))])]])]

/-- A decoded Gemini frame whose single candidate holds one functionCall
part. -/
def gemFrame1 : List (String × Json) :=
  [("candidates", Json.arr [Json.obj [("content",
      Json.obj [("parts", Json.arr [gemFCPart])])]])]

/-- Is some delta at index `i` present. -/
def hasIdx (tcs : List ToolCallDelta) (i : Int) : Bool :=
  tcs.any (fun tc => tc.index = i)

/-- The expected buffer map contents after feeding `tcs`. -/
def specBufs (tcs : List ToolCallDelta) (i : Int) : Option ToolBuffer :=
  if hasIdx tcs i then some (specBucket tcs i) else none

/-- The block emitted for the bucket at index `i`, if any. -/
def bucketBlock (tcs : List ToolCallDelta) (i : Int) : Option ContentBlock :=
  if (specBucket tcs i).id = "" then none
  else some (ContentBlock.toolCall
    { id := (specBucket tcs i).id, name := (specBucket tcs i).name,
      input := decodeArgs (specBucket tcs i).argsBuf.data })

theorem digitChar_toNat (d : Nat) (h : d < 10) : (digitChar d).toNat = 48 + d := by
  interval_cases d <;> rfl

theorem isDigitChar_digitChar (d : Nat) (h : d < 10) : isDigitChar (digitChar d) = true := by
  interval_cases d <;> rfl

theorem natDigits_cons (n : Nat) :
    ∃ d ds, natDigits n = d :: ds ∧ isDigitChar d = true := by
  induction n using Nat.strong_induction_on with
  | _ n ih =>
    rw [natDigits]
    by_cases h : n < 10
    · exact ⟨digitChar n, [], by simp [h], isDigitChar_digitChar n h⟩
    · obtain ⟨d, ds, hd, hdig⟩ := ih (n / 10) (Nat.div_lt_self (by omega) (by omega))
      exact ⟨d, ds ++ [digitChar (n % 10)], by simp [h, hd], hdig⟩

theorem natDigits_all_digits (n : Nat) :
    ∀ c ∈ natDigits n, isDigitChar c = true := by
  induction n using Nat.strong_induction_on with
  | _ n ih =>
    rw [natDigits]
    by_cases h : n < 10
    · simp [h]
      exact isDigitChar_digitChar n h
    · simp [h]
      intro c hc
      rcases hc with hc | hc
      · exact ih (n / 10) (Nat.div_lt_self (by omega) (by omega)) c hc
      · subst hc
        exact isDigitChar_digitChar (n % 10) (Nat.mod_lt n (by omega))

theorem parseDigits_append (ds : List Char) :
    ∀ (acc : Nat) (rest : List Char), (∀ c ∈ ds, isDigitChar c = true) →
      headIsDigit rest = false →
      parseDigits acc (ds ++ rest) = (ds.foldl digitStep acc, rest) := by
  induction ds with
  | nil =>
    intro acc rest _ hrest
    cases rest with
    | nil => rfl
    | cons c cs =>
      have hc : isDigitChar c = false := by simpa [headIsDigit] using hrest
      simp [parseDigits, hc]
  | cons d ds ih =>
    intro acc rest hds hrest
    have hd : isDigitChar d = true := hds d (by simp)
    have step1 : parseDigits acc ((d :: ds) ++ rest) = parseDigits (digitStep acc d) (ds ++ rest) := by
      simp [parseDigits, hd, digitStep]
    rw [step1, ih (digitStep acc d) rest (fun c hc => hds c (by simp [hc])) hrest]
    simp

theorem foldl_digitStep_natDigits_gen (n : Nat) :
    ∀ acc, (natDigits n).foldl digitStep acc = acc * 10 ^ (natDigits n).length + n := by
  induction n using Nat.strong_induction_on with
  | _ n ih =>
    intro acc
    rw [natDigits]
    by_cases h : n < 10
    · simp only [dif_pos h, List.foldl_cons, List.foldl_nil, List.length_singleton]
      simp [digitStep, digitChar_toNat n h]
      omega
    · simp only [dif_neg h, List.foldl_append, List.length_append]
      rw [ih (n / 10) (Nat.div_lt_self (by omega) (by omega)) acc]
      have hm : (digitChar (n % 10)).toNat = 48 + n % 10 :=
        digitChar_toNat _ (Nat.mod_lt n (by omega))
      simp only [List.foldl_cons, List.foldl_nil, List.length_singleton, digitStep, hm]
      have hdm : 10 * (n / 10) + n % 10 = n := Nat.div_add_mod n 10
      calc 10 * (acc * 10 ^ (natDigits (n / 10)).length + n / 10) + (48 + n % 10 - 48)
          = acc * (10 ^ (natDigits (n / 10)).length * 10) + (10 * (n / 10) + n % 10) := by
            ring_nf
            omega
        _ = acc * 10 ^ ((natDigits (n / 10)).length + 1) + n := by rw [pow_succ, hdm]

theorem foldl_digitStep_natDigits (n : Nat) :
    (natDigits n).foldl digitStep 0 = n := by
  simpa using foldl_digitStep_natDigits_gen n 0

theorem parseDigits_natDigits (n : Nat) (rest : List Char) (hrest : headIsDigit rest = false) :
    parseDigits 0 (natDigits n ++ rest) = (n, rest) := by
  rw [parseDigits_append (natDigits n) 0 rest (natDigits_all_digits n) hrest,
    foldl_digitStep_natDigits]

theorem hexVal_hexDigitChar (d : Nat) (h : d < 16) : hexVal (hexDigitChar d) = some d := by
  interval_cases d <;> rfl

theorem psc_quote (rest : List Char) : parseStringChars ('"' :: rest) = some ([], rest) := by
  rw [parseStringChars.eq_def]
  simp

theorem psc_plain (c : Char) (rest : List Char) (hq : ¬c = '"') (hb : ¬c = '\\') :
    parseStringChars (c :: rest) = (parseStringChars rest).map (fun p => (c :: p.1, p.2)) := by
  rw [parseStringChars.eq_def]
  simp only [if_neg hq, if_neg hb]

theorem psc_escQuote (rest : List Char) :
    parseStringChars ('\\' :: '"' :: rest) =
      (parseStringChars rest).map (fun p => ('"' :: p.1, p.2)) := by
  rw [parseStringChars.eq_def]
  simp

theorem psc_escBackslash (rest : List Char) :
    parseStringChars ('\\' :: '\\' :: rest) =
      (parseStringChars rest).map (fun p => ('\\' :: p.1, p.2)) := by
  rw [parseStringChars.eq_def]
  simp

theorem psc_escHex (h1 h2 h3 h4 : Char) (rest : List Char) (a b c2 d : Nat)
    (ha : hexVal h1 = some a) (hb2 : hexVal h2 = some b) (hc : hexVal h3 = some c2)
    (hd : hexVal h4 = some d) :
    parseStringChars ('\\' :: 'u' :: h1 :: h2 :: h3 :: h4 :: rest) =
      (parseStringChars rest).map
        (fun p => (Char.ofNat (4096 * a + 256 * b + 16 * c2 + d) :: p.1, p.2)) := by
  rw [parseStringChars.eq_def]
  simp [ha, hb2, hc, hd]

theorem parseStringChars_escape (s : List Char) :
    ∀ rest, parseStringChars (escapeChars s ++ '"' :: rest) = some (s, rest) := by
  induction s with
  | nil =>
    intro rest
    simpa [escapeChars] using psc_quote rest
  | cons c cs ih =>
    intro rest
    have hesc : escapeChars (c :: cs) = escapeChar c ++ escapeChars cs := by
      simp [escapeChars]
    rw [hesc]
    by_cases hq : c = '"'
    · subst hq
      rw [show escapeChar '"' = ['\\', '"'] from rfl]
      simp only [List.cons_append, List.nil_append]
      rw [psc_escQuote, ih rest]
      rfl
    · by_cases hb : c = '\\'
      · subst hb
        rw [show escapeChar '\\' = ['\\', '\\'] from rfl]
        simp only [List.cons_append, List.nil_append]
        rw [psc_escBackslash, ih rest]
        rfl
      · by_cases hc : c.toNat < 32
        · have hdiv : c.toNat / 16 < 16 := by omega
          have hmod : c.toNat % 16 < 16 := by omega
          simp only [escapeChar, if_neg hq, if_neg hb, if_pos hc, List.cons_append,
            List.nil_append, List.append_assoc]
          rw [psc_escHex '0' '0' (hexDigitChar (c.toNat / 16)) (hexDigitChar (c.toNat % 16))
            _ 0 0 (c.toNat / 16) (c.toNat % 16) rfl rfl (hexVal_hexDigitChar _ hdiv)
            (hexVal_hexDigitChar _ hmod), ih rest]
          have h16 : 4096 * 0 + 256 * 0 + 16 * (c.toNat / 16) + c.toNat % 16 = c.toNat := by
            omega
          rw [h16, Char.ofNat_toNat]
          rfl
        · have hesc1 : escapeChar c = [c] := by
            simp [escapeChar, hq, hb, hc]
          rw [hesc1]
          simp only [List.cons_append, List.nil_append]
          rw [psc_plain c _ hq hb, ih rest]
          rfl

mutual

/-- Structural size of a JSON value, used as a fuel bound. -/
def sizeJ : Json → Nat
| .null => 1
| .bool _ => 1
| .num _ => 1
| .str _ => 1
| .arr xs => 1 + sizeLJ xs
| .obj fs => 1 + sizeLF fs
termination_by j => sizeOf j

/-- Structural size of a JSON element list. -/
def sizeLJ : List Json → Nat
| [] => 0
| x :: xs => sizeJ x + 1 + sizeLJ xs
termination_by l => sizeOf l

/-- Structural size of a JSON field list. -/
def sizeLF : List (String × Json) → Nat
| [] => 0
| (_, v) :: fs => sizeJ v + 1 + sizeLF fs
termination_by l => sizeOf l

end

theorem sizeJ_pos (v : Json) : 1 ≤ sizeJ v := by
  cases v <;> simp [sizeJ]

theorem digit_not_special (c : Char) (h : isDigitChar c = true) :
    ¬c = 'n' ∧ ¬c = 't' ∧ ¬c = 'f' ∧ ¬c = '"' ∧ ¬c = '[' ∧ ¬c = '\x7b' ∧ ¬c = '-' ∧
      ¬c = ']' ∧ ¬c = '\x7d' ∧ ¬c = ',' ∧ ¬c = ':' := by
  refine ⟨?_, ?_, ?_, ?_, ?_, ?_, ?_, ?_, ?_, ?_, ?_⟩ <;>
    (rintro rfl; exact absurd h (by decide))

theorem serVal_head (v : Json) : ∃ c cs, serVal v = c :: cs ∧ ¬c = ']' ∧ ¬c = '\x7d' := by
  cases v with
  | null => exact ⟨'n', ['u', 'l', 'l'], by simp [serVal], by decide, by decide⟩
  | bool b =>
    cases b
    · exact ⟨'f', ['a', 'l', 's', 'e'], by simp [serVal], by decide, by decide⟩
    · exact ⟨'t', ['r', 'u', 'e'], by simp [serVal], by decide, by decide⟩
  | num n =>
    by_cases h : n < 0
    · refine ⟨'-', natDigits n.natAbs, ?_, by decide, by decide⟩
      simp [serVal, serInt, h]
    · obtain ⟨d, ds, hd, hdig⟩ := natDigits_cons n.natAbs
      obtain ⟨_, _, _, _, _, _, _, h8, h9, _⟩ := digit_not_special d hdig
      refine ⟨d, ds, ?_, h8, h9⟩
      simp [serVal, serInt, h, hd]
  | str s =>
    exact ⟨'"', escapeChars s.data ++ ['"'], by simp [serVal, serStr], by decide, by decide⟩
  | arr xs =>
    cases xs with
    | nil => exact ⟨'[', [']'], by simp [serVal], by decide, by decide⟩
    | cons x txs =>
      exact ⟨'[', serElemsNE x txs ++ [']'], by simp [serVal], by decide, by decide⟩
  | obj fs =>
    cases fs with
    | nil => exact ⟨'\x7b', ['\x7d'], by simp [serVal], by decide, by decide⟩
    | cons f tfs =>
      exact ⟨'\x7b', serFieldsNE f tfs ++ ['\x7d'], by simp [serVal], by decide, by decide⟩

theorem serElemsNE_head (x : Json) (xs : List Json) :
    ∃ c cs, serElemsNE x xs = c :: cs ∧ ¬c = ']' ∧ ¬c = '\x7d' := by
  obtain ⟨c, cs, hser, h1, h2⟩ := serVal_head x
  cases xs with
  | nil => exact ⟨c, cs, by simp [serElemsNE, hser], h1, h2⟩
  | cons y ys =>
    exact ⟨c, cs ++ ',' :: serElemsNE y ys, by simp [serElemsNE, hser], h1, h2⟩

theorem serFieldsNE_head (f : String × Json) (fs : List (String × Json)) :
    ∃ cs, serFieldsNE f fs = '"' :: cs := by
  obtain ⟨k, v⟩ := f
  cases fs with
  | nil =>
    exact ⟨escapeChars k.data ++ '"' :: ':' :: serVal v, by simp [serFieldsNE, serStr]⟩
  | cons g gs =>
    exact ⟨escapeChars k.data ++ '"' :: ':' :: (serVal v ++ ',' :: serFieldsNE g gs),
      by simp [serFieldsNE, serStr]⟩

theorem pv_step_null (fuel : Nat) (rest : List Char) :
    parseVal (fuel + 1) ('n' :: rest) =
      (dropLit ['u', 'l', 'l'] rest).map (fun r => (Json.null, r)) := by
  rw [parseVal.eq_def]
  simp

theorem pv_step_true (fuel : Nat) (rest : List Char) :
    parseVal (fuel + 1) ('t' :: rest) =
      (dropLit ['r', 'u', 'e'] rest).map (fun r => (Json.bool true, r)) := by
  rw [parseVal.eq_def]
  simp

theorem pv_step_false (fuel : Nat) (rest : List Char) :
    parseVal (fuel + 1) ('f' :: rest) =
      (dropLit ['a', 'l', 's', 'e'] rest).map (fun r => (Json.bool false, r)) := by
  rw [parseVal.eq_def]
  simp

theorem pv_step_quote (fuel : Nat) (rest : List Char) :
    parseVal (fuel + 1) ('"' :: rest) =
      (parseStringChars rest).map (fun p => (Json.str (String.mk p.1), p.2)) := by
  rw [parseVal.eq_def]
  simp

theorem pv_step_arr (fuel : Nat) (r0 : Char) (rs : List Char) :
    parseVal (fuel + 1) ('[' :: r0 :: rs) =
      (if r0 = ']' then some (Json.arr [], rs)
       else (parseElems fuel (r0 :: rs)).map (fun p => (Json.arr p.1, p.2))) := by
  rw [parseVal.eq_def]
  simp

theorem pv_step_obj (fuel : Nat) (r0 : Char) (rs : List Char) :
    parseVal (fuel + 1) ('\x7b' :: r0 :: rs) =
      (if r0 = '\x7d' then some (Json.obj [], rs)
       else (parseFields fuel (r0 :: rs)).map (fun p => (Json.obj p.1, p.2))) := by
  rw [parseVal.eq_def]
  simp

theorem pv_step_neg (fuel : Nat) (r0 : Char) (rs : List Char) :
    parseVal (fuel + 1) ('-' :: r0 :: rs) =
      (if isDigitChar r0 then
        some (Json.num (-((parseDigits 0 (r0 :: rs)).1 : Int)), (parseDigits 0 (r0 :: rs)).2)
       else none) := by
  rw [parseVal.eq_def]
  simp

theorem pv_step_digit (fuel : Nat) (c : Char) (rest : List Char) (h : isDigitChar c = true) :
    parseVal (fuel + 1) (c :: rest) =
      some (Json.num ((parseDigits 0 (c :: rest)).1 : Int), (parseDigits 0 (c :: rest)).2) := by
  obtain ⟨h1, h2, h3, h4, h5, h6, h7, _, _, _, _⟩ := digit_not_special c h
  rw [parseVal.eq_def]
  simp [h1, h2, h3, h4, h5, h6, h7, h]

theorem pe_step (fuel : Nat) (input : List Char) :
    parseElems (fuel + 1) input =
      (match parseVal fuel input with
       | none => none
       | some (v, r) =>
         match r with
         | [] => none
         | d :: r2 =>
           if d = ',' then (parseElems fuel r2).map (fun p => (v :: p.1, p.2))
           else if d = ']' then some ([v], r2)
           else none) := rfl

theorem pf_step_quote (fuel : Nat) (rest : List Char) :
    parseFields (fuel + 1) ('"' :: rest) =
      (match parseStringChars rest with
       | none => none
       | some (k, r) =>
         match r with
         | [] => none
         | d :: r2 =>
           if d = ':' then
             match parseVal fuel r2 with
             | none => none
             | some (v, r3) =>
               match r3 with
               | [] => none
               | e :: r4 =>
                 if e = ',' then
                   (parseFields fuel r4).map (fun p => ((String.mk k, v) :: p.1, p.2))
                 else if e = '\x7d' then some ([(String.mk k, v)], r4)
                 else none
           else none) := rfl

theorem roundtrip_master (fuel : Nat) :
    (∀ v rest, sizeJ v ≤ fuel → headIsDigit rest = false →
      parseVal fuel (serVal v ++ rest) = some (v, rest)) ∧
    (∀ x xs rest, sizeLJ (x :: xs) ≤ fuel →
      parseElems fuel (serElemsNE x xs ++ ']' :: rest) = some (x :: xs, rest)) ∧
    (∀ f fs rest, sizeLF (f :: fs) ≤ fuel →
      parseFields fuel (serFieldsNE f fs ++ '\x7d' :: rest) = some (f :: fs, rest)) := by
  induction fuel with
  | zero =>
    refine ⟨?_, ?_, ?_⟩
    · intro v rest hsz _
      have := sizeJ_pos v
      omega
    · intro x xs rest hsz
      have h1 := sizeJ_pos x
      have h2 : sizeLJ (x :: xs) = sizeJ x + 1 + sizeLJ xs := by simp [sizeLJ]
      omega
    · intro f fs rest hsz
      obtain ⟨k, v⟩ := f
      have h1 := sizeJ_pos v
      have h2 : sizeLF ((k, v) :: fs) = sizeJ v + 1 + sizeLF fs := by simp [sizeLF]
      omega
  | succ fuel ih =>
    obtain ⟨ihV, ihE, ihF⟩ := ih
    refine ⟨?_, ?_, ?_⟩
    · intro v rest hsz hrest
      cases v with
      | null =>
        rw [show serVal Json.null ++ rest = 'n' :: ('u' :: 'l' :: 'l' :: rest) by simp [serVal]]
        rw [pv_step_null]
        rfl
      | bool b =>
        cases b
        · rw [show serVal (Json.bool false) ++ rest =
            'f' :: ('a' :: 'l' :: 's' :: 'e' :: rest) by simp [serVal]]
          rw [pv_step_false]
          rfl
        · rw [show serVal (Json.bool true) ++ rest =
            't' :: ('r' :: 'u' :: 'e' :: rest) by simp [serVal]]
          rw [pv_step_true]
          rfl
      | num n =>
        by_cases h : n < 0
        · obtain ⟨d, ds, hd, hdig⟩ := natDigits_cons n.natAbs
          rw [show serVal (Json.num n) ++ rest = '-' :: d :: (ds ++ rest) by
            simp [serVal, serInt, h, hd]]
          rw [pv_step_neg, if_pos hdig]
          have hpd : parseDigits 0 (d :: (ds ++ rest)) = (n.natAbs, rest) := by
            have hnd := parseDigits_natDigits n.natAbs rest hrest
            rw [hd] at hnd
            simpa using hnd
          rw [hpd, show -((n.natAbs : Nat) : Int) = n from by omega]
        · obtain ⟨d, ds, hd, hdig⟩ := natDigits_cons n.natAbs
          rw [show serVal (Json.num n) ++ rest = d :: (ds ++ rest) by
            simp [serVal, serInt, h, hd]]
          rw [pv_step_digit fuel d _ hdig]
          have hpd : parseDigits 0 (d :: (ds ++ rest)) = (n.natAbs, rest) := by
            have hnd := parseDigits_natDigits n.natAbs rest hrest
            rw [hd] at hnd
            simpa using hnd
          rw [hpd, show ((n.natAbs : Nat) : Int) = n from by omega]
      | str s =>
        rw [show serVal (Json.str s) ++ rest =
          '"' :: (escapeChars s.data ++ '"' :: rest) by simp [serVal, serStr]]
        rw [pv_step_quote, parseStringChars_escape]
        rfl
      | arr xs =>
        cases xs with
        | nil =>
          rw [show serVal (Json.arr []) ++ rest = '[' :: ']' :: rest by simp [serVal]]
          rw [pv_step_arr]
          simp
        | cons x txs =>
          obtain ⟨e, es, he, he1, _⟩ := serElemsNE_head x txs
          rw [show serVal (Json.arr (x :: txs)) ++ rest =
            '[' :: e :: (es ++ ']' :: rest) by simp [serVal, he]]
          rw [pv_step_arr, if_neg he1]
          rw [show e :: (es ++ ']' :: rest) = serElemsNE x txs ++ ']' :: rest by simp [he]]
          have hsz2 : sizeLJ (x :: txs) ≤ fuel := by
            simp [sizeJ] at hsz
            omega
          rw [ihE x txs rest hsz2]
          rfl
      | obj fs =>
        cases fs with
        | nil =>
          rw [show serVal (Json.obj []) ++ rest = '\x7b' :: '\x7d' :: rest by simp [serVal]]
          rw [pv_step_obj]
          simp
        | cons f tfs =>
          obtain ⟨cs, hcs⟩ := serFieldsNE_head f tfs
          rw [show serVal (Json.obj (f :: tfs)) ++ rest =
            '\x7b' :: '"' :: (cs ++ '\x7d' :: rest) by simp [serVal, hcs]]
          rw [pv_step_obj, if_neg (by decide)]
          rw [show ('"' : Char) :: (cs ++ '\x7d' :: rest) =
            serFieldsNE f tfs ++ '\x7d' :: rest by simp [hcs]]
          have hsz2 : sizeLF (f :: tfs) ≤ fuel := by
            simp [sizeJ] at hsz
            omega
          rw [ihF f tfs rest hsz2]
          rfl
    · intro x xs rest hsz
      have hszx : sizeJ x ≤ fuel := by
        have := sizeJ_pos x
        simp [sizeLJ] at hsz
        omega
      cases xs with
      | nil =>
        rw [show serElemsNE x [] ++ ']' :: rest = serVal x ++ ']' :: rest by simp [serElemsNE]]
        rw [pe_step]
        have h1 := ihV x (']' :: rest) hszx rfl
        simp [h1]
      | cons y ys =>
        rw [show serElemsNE x (y :: ys) ++ ']' :: rest =
          serVal x ++ ',' :: (serElemsNE y ys ++ ']' :: rest) by simp [serElemsNE]]
        rw [pe_step]
        have h1 := ihV x (',' :: (serElemsNE y ys ++ ']' :: rest)) hszx rfl
        have hsz2 : sizeLJ (y :: ys) ≤ fuel := by
          have := sizeJ_pos x
          simp [sizeLJ] at hsz ⊢
          omega
        have h2 := ihE y ys rest hsz2
        simp [h1, h2]
    · intro f fs rest hsz
      obtain ⟨k, v⟩ := f
      have hszv : sizeJ v ≤ fuel := by
        simp [sizeLF] at hsz
        omega
      cases fs with
      | nil =>
        rw [show serFieldsNE (k, v) [] ++ '\x7d' :: rest =
          '"' :: (escapeChars k.data ++ '"' :: (':' :: (serVal v ++ '\x7d' :: rest))) by
            simp [serFieldsNE, serStr]]
        rw [pf_step_quote]
        rw [parseStringChars_escape]
        have h1 := ihV v ('\x7d' :: rest) hszv rfl
        simp [h1]
      | cons g gs =>
        rw [show serFieldsNE (k, v) (g :: gs) ++ '\x7d' :: rest =
          '"' :: (escapeChars k.data ++ '"' ::
            (':' :: (serVal v ++ ',' :: (serFieldsNE g gs ++ '\x7d' :: rest)))) by
            simp [serFieldsNE, serStr]]
        rw [pf_step_quote]
        rw [parseStringChars_escape]
        have h1 := ihV v (',' :: (serFieldsNE g gs ++ '\x7d' :: rest)) hszv rfl
        have hsz2 : sizeLF (g :: gs) ≤ fuel := by
          have := sizeJ_pos v
          simp [sizeLF] at hsz ⊢
          omega
        have h2 := ihF g gs rest hsz2
        simp [h1, h2]

mutual

theorem sizeJ_le_len (v : Json) : sizeJ v ≤ (serVal v).length := by
  cases v with
  | null => simp [sizeJ, serVal]
  | bool b => cases b <;> simp [sizeJ, serVal]
  | num n =>
    obtain ⟨d, ds, hd, _⟩ := natDigits_cons n.natAbs
    by_cases h : n < 0 <;> simp [sizeJ, serVal, serInt, h, hd]
  | str s => simp [sizeJ, serVal, serStr]
  | arr xs =>
    cases xs with
    | nil => simp [sizeJ, sizeLJ, serVal]
    | cons x txs =>
      have hle := sizeLJ_le_len x txs
      simp [sizeJ, serVal]
      omega
  | obj fs =>
    cases fs with
    | nil => simp [sizeJ, sizeLF, serVal]
    | cons f tfs =>
      have hle := sizeLF_le_len f tfs
      simp [sizeJ, serVal]
      omega
termination_by sizeOf v

theorem sizeLJ_le_len (x : Json) (xs : List Json) :
    sizeLJ (x :: xs) ≤ (serElemsNE x xs).length + 1 := by
  cases xs with
  | nil =>
    have hle := sizeJ_le_len x
    simp [sizeLJ, serElemsNE]
    omega
  | cons y ys =>
    have hle := sizeJ_le_len x
    have hle2 := sizeLJ_le_len y ys
    simp [sizeLJ, serElemsNE] at hle2 ⊢
    omega
termination_by 1 + sizeOf x + sizeOf xs

theorem sizeLF_le_len (f : String × Json) (fs : List (String × Json)) :
    sizeLF (f :: fs) ≤ (serFieldsNE f fs).length + 1 := by
  obtain ⟨k, v⟩ := f
  cases fs with
  | nil =>
    have hle := sizeJ_le_len v
    simp [sizeLF, serFieldsNE]
    omega
  | cons g gs =>
    have hle := sizeJ_le_len v
    have hle2 := sizeLF_le_len g gs
    simp [sizeLF, serFieldsNE] at hle2 ⊢
    omega
termination_by 1 + sizeOf f + sizeOf fs

end

theorem decodeJson_serVal (v : Json) : decodeJson (serVal v) = some v := by
  have hsz : sizeJ v ≤ (serVal v).length + 1 := le_trans (sizeJ_le_len v) (by omega)
  have hrt := (roundtrip_master ((serVal v).length + 1)).1 v [] hsz rfl
  rw [List.append_nil] at hrt
  unfold decodeJson
  rw [hrt]

theorem decodeArgs_encodeArgs (input : Option (List (String × Json))) :
    decodeArgs (encodeArgs input) = input := by
  cases input with
  | none =>
    show decodeArgs (serVal Json.null) = none
    unfold decodeArgs
    rw [decodeJson_serVal]
  | some fields =>
    show decodeArgs (serVal (Json.obj fields)) = some fields
    unfold decodeArgs
    rw [decodeJson_serVal]


/-- C2: the spec claims `IsRetryableError(err)` is true iff the error is (or
wraps) an `APIError` with status in exactly {429, 500, 502, 503, 504}.  The
source`s own comment above `IsRetryable` lists that same set, but the
implementation tests `StatusCode >= 500 && StatusCode <= 504`, which also
accepts 501: an `APIError` with status 501 — bare or wrapped — is reported
retryable although 501 is not in the documented set.  The code contradicts
its own documentation (code bug); this theorem evaluates the embedded code
at the failing input. -/
theorem c2_isRetryable_501_code_bug :
    isRetryableError (GoError.api 501 none) = true ∧
    isRetryableError (GoError.other (some (GoError.api 501 none))) = true ∧
    (([429, 500, 502, 503, 504] : List Int).contains 501 = false) := by
  refine ⟨rfl, rfl, rfl⟩

/-- C5: `Transformer.BuildAPIMessages` first removes system-role messages,
so its output on any list equals its output on the same list with those
messages removed; a non-empty system prompt is prepended as one
`{role:"system", content:prompt}` wire message at position 0 under the
Inline policy, and under Separate the wire list is exactly the adapter`s
output, unchanged. -/
theorem c5_system_prompt_handling (convert : List Message → List Json)
    (strategy : SystemStrategy) (messages : List Message) (systemPrompt : String) :
    buildAPIMessages convert strategy messages systemPrompt =
      buildAPIMessages convert strategy
        (messages.filter (fun m => ¬ m.role = Role.system)) systemPrompt ∧
    (systemPrompt ≠ "" →
      buildAPIMessages convert SystemStrategy.inline messages systemPrompt =
        Json.obj [("role", Json.str "system"), ("content", Json.str systemPrompt)] ::
          convert (messages.filter (fun m => ¬ m.role = Role.system))) ∧
    buildAPIMessages convert SystemStrategy.separate messages systemPrompt =
      convert (messages.filter (fun m => ¬ m.role = Role.system)) := by
  have hff : ((messages.filter (fun m => ¬ m.role = Role.system)).filter
      (fun m => ¬ m.role = Role.system)) = messages.filter (fun m => ¬ m.role = Role.system) := by
    rw [List.filter_filter]
    simp
  refine ⟨?_, ?_, ?_⟩
  · unfold buildAPIMessages
    rw [hff]
  · intro h
    unfold buildAPIMessages
    simp [h]
  · unfold buildAPIMessages
    by_cases h : systemPrompt = "" <;> simp [h]

/-- C5 witness: a list holding a stale system message plus a user message,
with the system prompt "You are helpful." and a length-reporting adapter. -/
theorem c5_witness :
    ("You are helpful." ≠ "") ∧
    buildAPIMessages (fun ms => [Json.num (ms.length : Int)]) SystemStrategy.inline
      [Message.mk Role.system "old" [], Message.mk Role.user "hi" []] "You are helpful." =
      Json.obj [("role", Json.str "system"), ("content", Json.str "You are helpful.")] ::
        [Json.num 1] :=
  ⟨by decide,
    ((c5_system_prompt_handling (fun ms => [Json.num (ms.length : Int)])
      SystemStrategy.inline
      [Message.mk Role.system "old" [], Message.mk Role.user "hi" []]
      "You are helpful.").2.1 (by decide)).trans (by rfl)⟩

/-- C7: every wire message the Anthropic adapter emits has a non-empty
`content` array of typed blocks (the `ABlock` type carries the
text/tool_use/tool_result tagging); a neutral message whose translated
content is empty contributes no wire message at all, and a message whose
blocks are all `ThinkingBlock`s (with no plain text) translates to empty
content. -/
theorem c7_anthropic_wire_invariants :
    (∀ (messages : List Message) (w : AWireMsg),
      w ∈ convertToAPIAnthropic messages → ¬ w.content = []) ∧
    (∀ (pre post : List Message) (msg : Message), anthropicContent msg = [] →
      convertToAPIAnthropic (pre ++ msg :: post) = convertToAPIAnthropic (pre ++ post)) ∧
    (∀ (msg : Message), (∀ b ∈ msg.contentBlocks, ∃ t, b = ContentBlock.thinking t) →
      msg.content = "" → anthropicContent msg = []) := by
  refine ⟨?_, ?_, ?_⟩
  · intro messages w hmem
    unfold convertToAPIAnthropic at hmem
    rw [List.mem_flatMap] at hmem
    obtain ⟨m, _, hw⟩ := hmem
    unfold convertMsgAnthropic at hw
    by_cases hsys : m.role = Role.system
    · simp [hsys] at hw
    · rw [if_neg hsys] at hw
      cases hctnt : anthropicContent m with
      | nil =>
        rw [hctnt] at hw
        simp at hw
      | cons b bs =>
        rw [hctnt] at hw
        simp at hw
        rw [hw]
        simp
  · intro pre post msg hempty
    have hnone : convertMsgAnthropic msg = [] := by
      unfold convertMsgAnthropic
      rw [hempty]
      by_cases hsys : msg.role = Role.system <;> simp [hsys]
    unfold convertToAPIAnthropic
    simp [hnone]
  · intro msg hth hcont
    unfold anthropicContent
    cases hb : msg.contentBlocks with
    | nil => simp [hcont]
    | cons b bs =>
      unfold anthropicBlocks
      rw [List.filterMap_eq_nil_iff]
      intro a ha
      obtain ⟨t, rfl⟩ := hth a (hb ▸ ha)
      rfl

/-- C7 witness: a thinking-only message yields empty content and is dropped
between two ordinary messages. -/
theorem c7_witness :
    anthropicContent (Message.mk Role.user "" [ContentBlock.thinking "hmm"]) = [] ∧
    convertToAPIAnthropic ([Message.mk Role.user "q" []] ++
        Message.mk Role.user "" [ContentBlock.thinking "hmm"] ::
        [Message.mk Role.assistant "a" []]) =
      convertToAPIAnthropic ([Message.mk Role.user "q" []] ++
        [Message.mk Role.assistant "a" []]) :=
  ⟨rfl,
    c7_anthropic_wire_invariants.2.1
      [Message.mk Role.user "q" []]
      [Message.mk Role.assistant "a" []]
      (Message.mk Role.user "" [ContentBlock.thinking "hmm"]) rfl⟩

/-- C4 counterexample: the claim quantifies over every neutral message with a
`ToolResultBlock`, but a system-role message is skipped before the
tool-result expansion (`ConvertToAPI` drops system messages first), so this
message with one `ToolResultBlock` produces zero wire messages instead of
one `role="tool"` message. -/
theorem c4_counterexample :
    convertToAPIOpenAI
      [Message.mk Role.system "" [ContentBlock.toolResult (GoToolResult.mk "t1" "ok" false)]] =
      [] := rfl

/-- C4 amended: for every non-system neutral message containing at least one
`ToolResultBlock`, `ConvertToAPI` emits exactly one wire message per
`ToolResultBlock` — role `"tool"`, `tool_call_id` the block`s `ToolUseID`
and content the block`s content — in block order, and the enclosing message
itself contributes nothing else, independently of the surrounding
messages. -/
theorem c4_tool_result_expansion (pre post : List Message) (msg : Message)
    (hsys : ¬ msg.role = Role.system) (htr : hasToolResults msg.contentBlocks = true) :
    convertToAPIOpenAI (pre ++ msg :: post) =
      convertToAPIOpenAI pre ++
        ((msg.contentBlocks.filterMap (fun b =>
          match b with
          | ContentBlock.toolResult tr => some tr
          | _ => none)).map (fun tr =>
            OAWireMsg.mk "tool" (some tr.content) [] (some tr.toolUseID))) ++
        convertToAPIOpenAI post := by
  have hmsg : convertMsgOpenAI msg =
      (msg.contentBlocks.filterMap (fun b =>
        match b with
        | ContentBlock.toolResult tr => some tr
        | _ => none)).map (fun tr =>
          OAWireMsg.mk "tool" (some tr.content) [] (some tr.toolUseID)) := by
    unfold convertMsgOpenAI
    rw [if_neg hsys, if_pos htr]
    induction msg.contentBlocks with
    | nil => rfl
    | cons b bs ih => cases b <;> simp [ih]
  unfold convertToAPIOpenAI
  rw [List.flatMap_append, List.flatMap_cons, hmsg, List.append_assoc]

/-- C4 witness: a user message with two tool results between two other
messages expands to two `role="tool"` wire messages in block order. -/
theorem c4_witness :
    (¬ (Message.mk Role.user ""
      [ContentBlock.toolResult (GoToolResult.mk "t1" "ok" false),
       ContentBlock.toolResult (GoToolResult.mk "t2" "done" false)]).role = Role.system) ∧
    convertToAPIOpenAI ([Message.mk Role.user "q" []] ++
        Message.mk Role.user ""
          [ContentBlock.toolResult (GoToolResult.mk "t1" "ok" false),
           ContentBlock.toolResult (GoToolResult.mk "t2" "done" false)] ::
        [Message.mk Role.assistant "a" []]) =
      convertToAPIOpenAI [Message.mk Role.user "q" []] ++
        [OAWireMsg.mk "tool" (some "ok") [] (some "t1"),
         OAWireMsg.mk "tool" (some "done") [] (some "t2")] ++
        convertToAPIOpenAI [Message.mk Role.assistant "a" []] :=
  ⟨by decide,
    (c4_tool_result_expansion [Message.mk Role.user "q" []]
      [Message.mk Role.assistant "a" []]
      (Message.mk Role.user ""
        [ContentBlock.toolResult (GoToolResult.mk "t1" "ok" false),
         ContentBlock.toolResult (GoToolResult.mk "t2" "done" false)])
      (by decide) rfl).trans (by rfl)⟩

/-- Helper for C10: the element-wise translation of a wellformed
`tool_calls` array always succeeds. -/
theorem oa_mapM_isSome (tcs : List Json) (h : tcs.all oaToolCallOk = true) :
    (tcs.mapM oaToolCallBlock).isSome = true := by
  induction tcs with
  | nil => rfl
  | cons tc rest ih =>
    rw [List.all_cons, Bool.and_eq_true] at h
    obtain ⟨h1, h2⟩ := h
    rw [List.mapM_cons]
    have htc : (oaToolCallBlock tc).isSome = true := by
      cases tc with
      | obj tcMap =>
        cases hfn : lookupList tcMap "function" with
        | none => simp [oaToolCallOk, hfn] at h1
        | some fj =>
          cases fj with
          | obj fn => simp [oaToolCallBlock, hfn]
          | null => simp [oaToolCallOk, hfn] at h1
          | bool b => simp [oaToolCallOk, hfn] at h1
          | num n => simp [oaToolCallOk, hfn] at h1
          | str s => simp [oaToolCallOk, hfn] at h1
          | arr a => simp [oaToolCallOk, hfn] at h1
      | null => simp [oaToolCallOk] at h1
      | bool b => simp [oaToolCallOk] at h1
      | num n => simp [oaToolCallOk] at h1
      | str s => simp [oaToolCallOk] at h1
      | arr a => simp [oaToolCallOk] at h1
    have hrest := ih h2
    cases hb : oaToolCallBlock tc with
    | none => rw [hb] at htc; exact absurd htc (by simp)
    | some blk =>
      cases hr : rest.mapM oaToolCallBlock with
      | none => rw [hr] at hrest; exact absurd hrest (by simp)
      | some bs => simp [hb, hr]

/-- C10 counterexample: the claim asserts `ConvertFromAPI` is total on every
decoded JSON object, but the Go code performs an unchecked type assertion
`choices[0].(map[string]any)` and panics when the first choice is not an
object; the embedding returns `none` (panic) on this input. -/
theorem c10_counterexample :
    (convertFromAPIOpenAI [("choices", Json.arr [Json.str "x"])]).isSome = false := rfl

/-- Helper for C10: `oaFromChoice` succeeds on a choice satisfying its type
assertions. -/
theorem oaFromChoice_isSome (choice : List (String × Json))
    (h : oaChoiceOk choice = true) : (oaFromChoice choice).isSome = true := by
  cases ht : lookupList (oaMessageData choice) "tool_calls" with
  | none => simp [oaFromChoice, ht]
  | some tj =>
    cases tj with
    | arr tcs =>
      have hall : tcs.all oaToolCallOk = true := by simpa [oaChoiceOk, ht] using h
      have hsome := oa_mapM_isSome tcs hall
      cases hmm : tcs.mapM oaToolCallBlock with
      | none => rw [hmm] at hsome; exact absurd hsome (by simp)
      | some bs =>
        have hmm2 : List.mapM.loop oaToolCallBlock tcs [] = some bs := hmm
        simp [oaFromChoice, ht, hmm, hmm2]
    | null => simp [oaFromChoice, ht]
    | bool b => simp [oaFromChoice, ht]
    | num n => simp [oaFromChoice, ht]
    | str s => simp [oaFromChoice, ht]
    | obj o => simp [oaFromChoice, ht]

/-- C10 amended: `ConvertFromAPI` is total (no panic) on every decoded
response in which, whenever `choices` is a non-empty array, its first
element is an object, and whenever `message.tool_calls` is an array, every
element is an object whose `function` field is an object (`oaRespOk`);
outside these conditions the unchecked type assertions panic. -/
theorem c10_total_on_wellformed (resp : List (String × Json))
    (h : oaRespOk resp = true) :
    (convertFromAPIOpenAI resp).isSome = true := by
  cases hc : lookupList resp "choices" with
  | none => simp [convertFromAPIOpenAI, hc]
  | some j =>
    cases j with
    | arr elems =>
      cases elems with
      | nil => simp [convertFromAPIOpenAI, hc]
      | cons c0 crest =>
        cases c0 with
        | obj choice =>
          have h2 : oaChoiceOk choice = true := by simpa [oaRespOk, hc] using h
          have := oaFromChoice_isSome choice h2
          simpa [convertFromAPIOpenAI, hc] using this
        | null => simp [oaRespOk, hc] at h
        | bool b => simp [oaRespOk, hc] at h
        | num n => simp [oaRespOk, hc] at h
        | str s => simp [oaRespOk, hc] at h
        | arr a => simp [oaRespOk, hc] at h
    | null => simp [convertFromAPIOpenAI, hc]
    | bool b => simp [convertFromAPIOpenAI, hc]
    | num n => simp [convertFromAPIOpenAI, hc]
    | str s => simp [convertFromAPIOpenAI, hc]
    | obj o => simp [convertFromAPIOpenAI, hc]

/-- C10 witness: a wellformed response with one tool call whose `function`
field is an object parses without panic. -/
theorem c10_witness :
    oaRespOk [("choices", Json.arr [Json.obj [("message", Json.obj [("tool_calls",
      Json.arr [Json.obj [("function", Json.obj [])]])])]])] = true ∧
    (convertFromAPIOpenAI [("choices", Json.arr [Json.obj [("message", Json.obj [("tool_calls",
      Json.arr [Json.obj [("function", Json.obj [])]])])]])]).isSome = true :=
  ⟨rfl, c10_total_on_wellformed
    [("choices", Json.arr [Json.obj [("message", Json.obj [("tool_calls",
      Json.arr [Json.obj [("function", Json.obj [])]])])]])] rfl⟩

theorem data_mk (l : List Char) : (String.mk l).data = l := rfl

/-- C1: the OpenAI adapter serializes `ToolCall.Input` to a JSON string
placed at `function.arguments` (every wire tool call`s arguments string is
the serialization of the source block`s input and decodes back to it), and
`ConvertFromAPI` applied to a response carrying that same string decodes it
back to a mapping equal to the original input — `decode(encode(input)) =
input` for every input value the core emits (`nil` maps included). -/
theorem c1_arguments_roundtrip :
    (∀ (input : Option (List (String × Json))), decodeArgs (encodeArgs input) = input) ∧
    (∀ (blocks : List ContentBlock) (w : OAToolCall), w ∈ extractToolCalls blocks →
      ∃ tc, ContentBlock.toolCall tc ∈ blocks ∧
        w.arguments = String.mk (encodeArgs tc.input) ∧
        decodeArgs w.arguments.data = tc.input) ∧
    (∀ (id name : String) (input : Option (List (String × Json))),
      convertFromAPIOpenAI
        [("choices", Json.arr [Json.obj [("message", Json.obj [("tool_calls", Json.arr
          [Json.obj [("id", Json.str id), ("function", Json.obj
            [("name", Json.str name),
             ("arguments", Json.str (String.mk (encodeArgs input)))])]])])]])] =
        some (Message.mk Role.assistant ""
          [ContentBlock.toolCall (GoToolCall.mk id name input)], "")) := by
  refine ⟨decodeArgs_encodeArgs, ?_, ?_⟩
  · intro blocks w hmem
    unfold extractToolCalls at hmem
    rw [List.mem_filterMap] at hmem
    obtain ⟨b, hb, hw⟩ := hmem
    cases b with
    | toolCall tc =>
      simp at hw
      refine ⟨tc, hb, ?_, ?_⟩
      · rw [← hw]
      · rw [← hw]
        rw [data_mk]
        exact decodeArgs_encodeArgs tc.input
    | text t => simp at hw
    | toolResult tr => simp at hw
    | thinking t => simp at hw
  · intro id name input
    have hblock : oaToolCallBlock (Json.obj
        [("id", Json.str id), ("function", Json.obj
          [("name", Json.str name), ("arguments", Json.str (String.mk (encodeArgs input)))])]) =
        some (ContentBlock.toolCall (GoToolCall.mk id name input)) := by
      simp [oaToolCallBlock, lookupList, getString, data_mk, decodeArgs_encodeArgs]
    have hmap : List.mapM.loop oaToolCallBlock
        [Json.obj [("id", Json.str id), ("function", Json.obj
          [("name", Json.str name), ("arguments", Json.str (String.mk (encodeArgs input)))])]]
        [] = some [ContentBlock.toolCall (GoToolCall.mk id name input)] := by
      simp [List.mapM.loop, hblock]
    simp [convertFromAPIOpenAI, lookupList, oaFromChoice, oaMessageData, hmap]

/-- C1 witness: the empty-object input and a one-field input, pushed through
`extractToolCalls`, decode back to themselves. -/
theorem c1_witness :
    (OAToolCall.mk "i" "f" (String.mk (encodeArgs (some [("x", Json.num 7)]))) ∈
      extractToolCalls [ContentBlock.toolCall
        (GoToolCall.mk "i" "f" (some [("x", Json.num 7)]))]) ∧
    (∃ tc, ContentBlock.toolCall tc ∈ [ContentBlock.toolCall
        (GoToolCall.mk "i" "f" (some [("x", Json.num 7)]))] ∧
      (OAToolCall.mk "i" "f" (String.mk (encodeArgs (some [("x", Json.num 7)])))).arguments =
        String.mk (encodeArgs tc.input) ∧
      decodeArgs (OAToolCall.mk "i" "f"
        (String.mk (encodeArgs (some [("x", Json.num 7)])))).arguments.data = tc.input) :=
  ⟨by simp [extractToolCalls],
    c1_arguments_roundtrip.2.1
      [ContentBlock.toolCall (GoToolCall.mk "i" "f" (some [("x", Json.num 7)]))]
      (OAToolCall.mk "i" "f" (String.mk (encodeArgs (some [("x", Json.num 7)]))))
      (by simp [extractToolCalls])⟩

/-- C9 counterexample to the exclusivity clause ("malformed JSON lines are
the only place inside the core where an error is swallowed"): the OpenAI
adapter`s `ConvertFromAPI` discards the `json.Unmarshal` error on a
malformed `function.arguments` string (`_ = json.Unmarshal(...)`), returning
success with a null tool input instead of surfacing any error. -/
theorem c9_counterexample :
    convertFromAPIOpenAI [("choices", Json.arr [Json.obj [("message", Json.obj [("tool_calls",
      Json.arr [Json.obj [("id", Json.str "t"), ("function", Json.obj [("name", Json.str "f"),
        ("arguments", Json.str "oops")])]])])]])] =
      some (Message.mk Role.assistant ""
        [ContentBlock.toolCall (GoToolCall.mk "t" "f" none)], "") := rfl

/-- C9 amended: a data line whose payload fails to decode as JSON is
silently skipped by the SSE parser — no event, no error, the stream stays
open and parsing continues with the remaining lines exactly as if the line
had not been there; JSON decode failures of tool-call argument strings
elsewhere in the core (adapter and aggregator) are likewise swallowed,
yielding a null tool input rather than an error. -/
theorem c9_malformed_data_line_skipped :
    (∀ (h : SSEHandler) (decode : String → Option (List (String × Json)))
      (line : String) (rest : List String) (curEv : String),
      "event: ".data.isPrefixOf line.data = false →
      "data: ".data.isPrefixOf line.data = true →
      h.shouldStopOnData (String.mk (line.data.drop 6)) = false →
      decode (String.mk (line.data.drop 6)) = none →
      sseParse h decode (line :: rest) curEv = sseParse h decode rest curEv) ∧
    (∀ (idStr nameStr argsStr : String), ¬ idStr = "" →
      decodeArgs argsStr.data = none →
      (parseEvents [Event.toolCall (ToolCallDelta.mk 0 idStr nameStr argsStr)]).message =
        Message.mk Role.assistant ""
          [ContentBlock.toolCall (GoToolCall.mk idStr nameStr none)]) := by
  constructor
  · intro h decode line rest curEv h1 h2 h3 h4
    rw [sseParse.eq_def]
    simp [h1, h2, h3, h4]
  · intro idStr nameStr argsStr hid hargs
    have hname : (if nameStr ≠ "" then nameStr else "") = nameStr := by
      by_cases hn : nameStr = "" <;> simp [hn]
    have hbuf : (if argsStr ≠ "" then "" ++ argsStr else "") = argsStr := by
      by_cases ha : argsStr = "" <;> simp [ha]
    unfold parseEvents
    simp only [List.foldl_cons, List.foldl_nil, parseStep]
    unfold handleToolCall initStreamState buildMessage
    simp only [Option.getD]
    rw [hname, hbuf]
    simp only [List.filterMap]
    norm_num
    simp [hid, hargs, List.range_succ]

/-- C9 witness: a concrete undecodable data line between two other lines is
skipped without effect, under the OpenAI handler. -/
theorem c9_witness :
    ("event: ".data.isPrefixOf "data: oops".data = false) ∧
    ("data: ".data.isPrefixOf "data: oops".data = true) ∧
    (oaHandler.shouldStopOnData (String.mk ("data: oops".data.drop 6)) = false) ∧
    ((fun (_ : String) => (none : Option (List (String × Json))))
      (String.mk ("data: oops".data.drop 6)) = none) ∧
    sseParse oaHandler (fun _ => none) ["data: oops", "data: [DONE]"] "" =
      sseParse oaHandler (fun _ => none) ["data: [DONE]"] "" :=
  ⟨rfl, rfl, rfl, rfl,
    c9_malformed_data_line_skipped.1 oaHandler (fun _ => none) "data: oops"
      ["data: [DONE]"] "" rfl rfl rfl rfl⟩

theorem oaHandleDelta_no_stop (choice : List (String × Json)) (r : List Event × Bool)
    (h : oaHandleDelta choice = some r) : r.2 = false := by
  unfold oaHandleDelta at h
  repeat split at h
  all_goals first
    | (cases Option.some.inj h; rfl)
    | simp at h

theorem oaHandleEvent_no_stop (et : String) (data : List (String × Json))
    (r : List Event × Bool) (h : oaHandleEvent et data = some r) : r.2 = false := by
  unfold oaHandleEvent at h
  repeat split at h
  all_goals first
    | (cases Option.some.inj h; rfl)
    | simp at h
    | exact oaHandleDelta_no_stop _ _ h

theorem sse_step (h : SSEHandler) (decode : String → Option (List (String × Json)))
    (line : String) (rest : List String) (curEv : String) :
    sseParse h decode (line :: rest) curEv =
      (if "event: ".data.isPrefixOf line.data then
        sseParse h decode rest (String.mk (line.data.drop 7))
       else if "data: ".data.isPrefixOf line.data then
         (if h.shouldStopOnData (String.mk (line.data.drop 6)) then
            some ([Event.done "stop"], true)
          else
            match decode (String.mk (line.data.drop 6)) with
            | none => sseParse h decode rest curEv
            | some payload =>
              match h.handleEvent curEv payload with
              | none => none
              | some (evs, stop) =>
                if stop then some (evs, true)
                else (sseParse h decode rest curEv).map (fun p => (evs ++ p.1, p.2)))
       else sseParse h decode rest curEv) := rfl

/-- C6: in the OpenAI streaming path, a frame with a non-empty
`choices[0].finish_reason` makes the handler emit exactly one done event
with that reason and continue (stop=false); the handler never signals stop;
`ShouldStopOnData` holds exactly for the raw payload `[DONE]`, at which
point the parser emits one done event with reason "stop" and closes; and
the parser stops early only if some data line carries the payload
`[DONE]`. -/
theorem c6_openai_stream_termination :
    (∀ s : String, oaShouldStopOnData s = true ↔ s = "[DONE]") ∧
    (∀ (data choice : List (String × Json)) (rest : List Json) (et fr : String),
      lookupList data "choices" = some (Json.arr (Json.obj choice :: rest)) →
      lookupList choice "finish_reason" = some (Json.str fr) → ¬ fr = "" →
      oaHandleEvent et data = some ([Event.done fr], false)) ∧
    (∀ (et : String) (data : List (String × Json)) (r : List Event × Bool),
      oaHandleEvent et data = some r → r.2 = false) ∧
    (∀ (decode : String → Option (List (String × Json))) (rest : List String)
      (curEv : String),
      sseParse oaHandler decode ("data: [DONE]" :: rest) curEv =
        some ([Event.done "stop"], true)) ∧
    (∀ (decode : String → Option (List (String × Json))) (lines : List String)
      (curEv : String) (res : List Event × Bool),
      sseParse oaHandler decode lines curEv = some res → res.2 = true →
      ∃ line ∈ lines, "data: ".data.isPrefixOf line.data = true ∧
        String.mk (line.data.drop 6) = "[DONE]") := by
  refine ⟨?_, ?_, oaHandleEvent_no_stop, ?_, ?_⟩
  · intro s
    unfold oaShouldStopOnData
    exact beq_iff_eq
  · intro data choice rest et fr hc hfr hne
    simp [oaHandleEvent, hc, hfr, hne]
  · intro decode rest curEv
    rfl
  · intro decode lines
    induction lines with
    | nil =>
      intro curEv res h hstop
      cases Option.some.inj h
      simp at hstop
    | cons line rest ih =>
      intro curEv res h hstop
      rw [sse_step] at h
      by_cases he : "event: ".data.isPrefixOf line.data = true
      · rw [if_pos he] at h
        obtain ⟨l, hl, hprop⟩ := ih _ _ h hstop
        exact ⟨l, List.mem_cons_of_mem _ hl, hprop⟩
      · rw [if_neg he] at h
        by_cases hd : "data: ".data.isPrefixOf line.data = true
        · rw [if_pos hd] at h
          by_cases hs : oaHandler.shouldStopOnData (String.mk (line.data.drop 6)) = true
          · refine ⟨line, List.mem_cons_self _ _, hd, ?_⟩
            exact eq_of_beq hs
          · rw [if_neg hs] at h
            split at h
            · obtain ⟨l, hl, hprop⟩ := ih _ _ h hstop
              exact ⟨l, List.mem_cons_of_mem _ hl, hprop⟩
            · split at h
              · simp at h
              · rename_i payload hdec r evs stop hh
                have hp2 : stop = false := oaHandleEvent_no_stop curEv payload _ hh
                subst hp2
                rw [if_neg Bool.false_ne_true] at h
                rw [Option.map_eq_some'] at h
                obtain ⟨q, hq, hres⟩ := h
                have hq2 : res.2 = q.2 := by rw [← hres]
                obtain ⟨l, hl, hprop⟩ := ih _ _ hq (by rw [← hq2]; exact hstop)
                exact ⟨l, List.mem_cons_of_mem _ hl, hprop⟩
        · rw [if_neg hd] at h
          obtain ⟨l, hl, hprop⟩ := ih _ _ h hstop
          exact ⟨l, List.mem_cons_of_mem _ hl, hprop⟩

/-- C6 witness: a frame carrying `finish_reason:"tool_calls"` yields exactly
one done event and no stop signal. -/
theorem c6_witness :
    (lookupList [("choices", Json.arr [Json.obj [("finish_reason", Json.str "tool_calls")]])]
      "choices" = some (Json.arr (Json.obj [("finish_reason", Json.str "tool_calls")] :: []))) ∧
    (¬ "tool_calls" = "") ∧
    oaHandleEvent "" [("choices", Json.arr [Json.obj [("finish_reason", Json.str "tool_calls")]])] =
      some ([Event.done "tool_calls"], false) :=
  ⟨rfl, by decide,
    c6_openai_stream_termination.2.1
      [("choices", Json.arr [Json.obj [("finish_reason", Json.str "tool_calls")]])]
      [("finish_reason", Json.str "tool_calls")] [] "" "tool_calls" rfl rfl (by decide)⟩

theorem range'_cat (a m n : Nat) :
    List.range' a m ++ List.range' (a + m) n = List.range' a (m + n) := by
  induction m generalizing a with
  | zero => simp
  | succ m ih =>
    rw [List.range'_succ, Nat.succ_add, List.range'_succ, List.cons_append]
    have e : a + (m + 1) = (a + 1) + m := by omega
    rw [e, ih]

theorem str_ext (a b : String) (h : a.data = b.data) : a = b := by
  cases a
  cases b
  cases h
  rfl

theorem letterOf_mod (k : Nat) : letterOf (k % 26) = letterOf k := by
  have h : k % 26 % 26 = k % 26 := by omega
  simp [letterOf, h]

theorem letterOf_fin_inj : ∀ a b : Fin 26, letterOf a.val = letterOf b.val → a = b := by
  decide

theorem toolCallIds_append (a b : List Event) :
    toolCallIds (a ++ b) = toolCallIds a ++ toolCallIds b := by
  simp [toolCallIds, List.filterMap_append]

theorem toolCallIds_cons_toolCall (tc : ToolCallDelta) (l : List Event) :
    toolCallIds (Event.toolCall tc :: l) = tc.id :: toolCallIds l := rfl

theorem toolCallIds_textEvs (pm : List (String × Json)) (l : List Event) :
    toolCallIds (geminiTextEvs pm ++ l) = toolCallIds l := by
  rw [toolCallIds_append]
  simp only [geminiTextEvs]
  split
  · split
    · split <;> simp [toolCallIds, List.filterMap]
    · simp [toolCallIds]
  · simp [toolCallIds]

theorem geminiParts_ids (ps : List Json) (i counter : Nat) :
    counter ≤ (geminiParts i counter ps).2 ∧
    toolCallIds (geminiParts i counter ps).1 =
      (List.range' (counter + 1) ((geminiParts i counter ps).2 - counter)).map
        (fun k => "gemini_call_" ++ letterOf k) := by
  induction ps generalizing i counter with
  | nil => simp [geminiParts, toolCallIds]
  | cons p ps ih =>
    cases p with
    | obj pm =>
      simp only [geminiParts]
      split
      · simp only [generateStreamToolCallID]
        have h := ih (i + 1) (counter + 1)
        constructor
        · exact Nat.le_of_succ_le h.1
        · rw [toolCallIds_textEvs, toolCallIds_cons_toolCall]
          rw [h.2]
          have e : (geminiParts (i + 1) (counter + 1) ps).2 - counter
              = ((geminiParts (i + 1) (counter + 1) ps).2 - (counter + 1)) + 1 := by
            have h1 := h.1
            omega
          rw [e, List.range'_succ, List.map_cons]
      · refine ⟨(ih (i + 1) counter).1, ?_⟩
        exact (toolCallIds_textEvs _ _).trans (ih (i + 1) counter).2
    | null => exact ih (i + 1) counter
    | bool b => exact ih (i + 1) counter
    | num n => exact ih (i + 1) counter
    | str s => exact ih (i + 1) counter
    | arr l => exact ih (i + 1) counter

theorem geminiContent_ids (counter : Nat) (cand : List (String × Json))
    (r : List Event × Bool × Nat) (h : geminiContent counter cand = some r) :
    counter ≤ r.2.2 ∧
    toolCallIds r.1 =
      (List.range' (counter + 1) (r.2.2 - counter)).map
        (fun k => "gemini_call_" ++ letterOf k) := by
  simp only [geminiContent] at h
  repeat split at h
  all_goals cases Option.some.inj h
  all_goals first
    | exact ⟨Nat.le_refl _, by simp [toolCallIds]⟩
    | exact geminiParts_ids _ 0 counter

theorem geminiHandleEvent_ids (counter : Nat) (data : List (String × Json))
    (r : List Event × Bool × Nat) (h : geminiHandleEvent counter data = some r) :
    counter ≤ r.2.2 ∧
    toolCallIds r.1 =
      (List.range' (counter + 1) (r.2.2 - counter)).map
        (fun k => "gemini_call_" ++ letterOf k) := by
  unfold geminiHandleEvent at h
  repeat split at h
  all_goals first
    | (cases Option.some.inj h; exact ⟨Nat.le_refl _, by simp [toolCallIds]⟩)
    | exact geminiContent_ids _ _ _ h
    | simp at h

theorem runGeminiFrames_ids (frames : List (List (String × Json))) (counter : Nat)
    (r : List Event × Nat) (h : runGeminiFrames counter frames = some r) :
    counter ≤ r.2 ∧
    toolCallIds r.1 =
      (List.range' (counter + 1) (r.2 - counter)).map
        (fun k => "gemini_call_" ++ letterOf k) := by
  induction frames generalizing counter r with
  | nil =>
    cases Option.some.inj h
    exact ⟨Nat.le_refl _, by simp [toolCallIds]⟩
  | cons f fs ih =>
    unfold runGeminiFrames at h
    split at h
    · simp at h
    · rename_i evs stop c2 hh
      have h1 : counter ≤ c2 ∧
          toolCallIds evs =
            (List.range' (counter + 1) (c2 - counter)).map
              (fun k => "gemini_call_" ++ letterOf k) :=
        geminiHandleEvent_ids counter f _ hh
      split at h
      · cases Option.some.inj h
        exact h1
      · rw [Option.map_eq_some'] at h
        obtain ⟨q, hq, hr⟩ := h
        have h2 := ih c2 q hq
        cases hr
        constructor
        · exact Nat.le_trans h1.1 h2.1
        · rw [toolCallIds_append, h1.2, h2.2, ← List.map_append]
          have e1 : c2 + 1 = (counter + 1) + (c2 - counter) := by
            have := h1.1
            omega
          have e2 : q.2 - counter = (c2 - counter) + (q.2 - c2) := by
            have := h1.1
            have := h2.1
            omega
          rw [e2, ← range'_cat (counter + 1) (c2 - counter) (q.2 - c2), e1]

/-- C8 counterexample: a single Gemini frame with 27 functionCall parts
yields 27 tool-call events whose synthesized ids are NOT pairwise distinct
(the counter is reduced mod 26, so ids cycle). -/
theorem c8_counterexample :
    (runGeminiFrames 0 [gemFrame27]).map
        (fun p => ((toolCallIds p.1).length, decide (toolCallIds p.1).Nodup)) =
      some (27, false) := by
  decide

/-- C8: every tool-call event of a Gemini stream carries a synthesized id
`"gemini_call_" ++ letter(k)` for consecutive counter values k, and the ids
are pairwise distinct PROVIDED the stream contains at most 26 functionCall
parts; beyond 26 the letter cycles mod 26 (see the counterexample). -/
theorem c8_gemini_id_uniqueness (frames : List (List (String × Json)))
    (counter : Nat) (r : List Event × Nat)
    (h : runGeminiFrames counter frames = some r) :
    counter ≤ r.2 ∧
    toolCallIds r.1 =
      (List.range' (counter + 1) (r.2 - counter)).map
        (fun k => "gemini_call_" ++ letterOf k) ∧
    (r.2 - counter ≤ 26 → (toolCallIds r.1).Nodup) := by
  have h1 := runGeminiFrames_ids frames counter r h
  refine ⟨h1.1, h1.2, ?_⟩
  intro hle
  rw [h1.2]
  refine List.Nodup.map_on ?_ (List.nodup_range' _ _ 1 Nat.one_pos)
  intro x hx y hy hxy
  rw [List.mem_range'_1] at hx hy
  have hd := congrArg String.data hxy
  simp only [String.data_append] at hd
  have hcancel : letterOf x = letterOf y :=
    str_ext _ _ (List.append_cancel_left hd)
  rw [← letterOf_mod x, ← letterOf_mod y] at hcancel
  have hk := letterOf_fin_inj ⟨x % 26, by omega⟩ ⟨y % 26, by omega⟩ hcancel
  have hm : x % 26 = y % 26 := congrArg Fin.val hk
  omega

/-- C8 witness: a one-functionCall stream, ids distinct. -/
theorem c8_witness :
    (runGeminiFrames 0 [gemFrame1] =
      some ([Event.toolCall (ToolCallDelta.mk 0 "gemini_call_b" "f" "")], 1)) ∧
    toolCallIds [Event.toolCall (ToolCallDelta.mk 0 "gemini_call_b" "f" "")] =
      (List.range' 1 1).map (fun k => "gemini_call_" ++ letterOf k) ∧
    (toolCallIds [Event.toolCall (ToolCallDelta.mk 0 "gemini_call_b" "f" "")]).Nodup :=
  ⟨rfl,
   (c8_gemini_id_uniqueness [gemFrame1] 0
      ([Event.toolCall (ToolCallDelta.mk 0 "gemini_call_b" "f" "")], 1) rfl).2.1,
   (c8_gemini_id_uniqueness [gemFrame1] 0
      ([Event.toolCall (ToolCallDelta.mk 0 "gemini_call_b" "f" "")], 1) rfl).2.2
     (by decide)⟩

theorem lastNonEmpty_append_one (xs : List String) (x : String) :
    lastNonEmpty (xs ++ [x]) = if x ≠ "" then x else lastNonEmpty xs := by
  simp [lastNonEmpty, List.foldl_append]

theorem concatAll_append_one (xs : List String) (x : String) :
    concatAll (xs ++ [x]) = concatAll xs ++ x := by
  simp [concatAll, List.foldl_append]

theorem maxIndexOf_append_one (tcs : List ToolCallDelta) (tc : ToolCallDelta) :
    maxIndexOf (tcs ++ [tc]) =
      if tc.index > maxIndexOf tcs then tc.index else maxIndexOf tcs := by
  simp [maxIndexOf, List.foldl_append]

theorem specBucket_empty (tcs : List ToolCallDelta) (i : Int) (h : hasIdx tcs i = false) :
    specBucket tcs i = ToolBuffer.mk "" "" "" := by
  have hf : tcs.filter (fun tc => tc.index = i) = [] := by
    rw [List.filter_eq_nil_iff]
    intro a ha
    have hh : tcs.any (fun tc => tc.index = i) = false := h
    rw [List.any_eq_false] at hh
    simpa using hh a ha
  simp [specBucket, hf, lastNonEmpty, concatAll]

theorem specBucket_append_ne (tcs : List ToolCallDelta) (tc : ToolCallDelta) (i : Int)
    (h : ¬ tc.index = i) :
    specBucket (tcs ++ [tc]) i = specBucket tcs i := by
  simp [specBucket, List.filter_append, h]

theorem specBucket_append_eq (tcs : List ToolCallDelta) (tc : ToolCallDelta) :
    specBucket (tcs ++ [tc]) tc.index =
      { id := if tc.id ≠ "" then tc.id else (specBucket tcs tc.index).id,
        name := if tc.name ≠ "" then tc.name else (specBucket tcs tc.index).name,
        argsBuf := (specBucket tcs tc.index).argsBuf ++ tc.argumentsDelta } := by
  simp [specBucket, List.filter_append, lastNonEmpty_append_one, concatAll_append_one]

theorem hasIdx_append_one (tcs : List ToolCallDelta) (tc : ToolCallDelta) (i : Int) :
    hasIdx (tcs ++ [tc]) i = (hasIdx tcs i || decide (tc.index = i)) := by
  simp [hasIdx, List.any_append]

theorem str_append_empty (s : String) : s ++ "" = s := by
  apply str_ext
  simp [String.data_append]

theorem toolDeltas_append (xs ys : List Event) :
    toolDeltas (xs ++ ys) = toolDeltas xs ++ toolDeltas ys := by
  simp [toolDeltas, List.filterMap_append]

theorem specTextCat_append_one (xs : List Event) (e : Event) :
    specTextCat (xs ++ [e]) =
      specTextCat xs ++ (match e with | .text d => d | _ => "") := by
  cases e <;>
    simp [specTextCat, List.filterMap_append, concatAll_append_one, str_append_empty,
      List.filterMap, concatAll]

theorem parse_state_inv (evs : List Event) :
    ((evs.foldl parseStep (initStreamState, "")).1.textBuf = specTextCat evs) ∧
    ((evs.foldl parseStep (initStreamState, "")).1.maxIndex =
      maxIndexOf (toolDeltas evs)) ∧
    (∀ i, (evs.foldl parseStep (initStreamState, "")).1.toolBufs i =
      specBufs (toolDeltas evs) i) := by
  induction evs using List.reverseRecOn with
  | nil =>
    refine ⟨rfl, rfl, fun i => ?_⟩
    simp [initStreamState, specBufs, hasIdx, toolDeltas, List.filterMap]
  | append_singleton xs e ih =>
    obtain ⟨ht, hm, hb⟩ := ih
    rw [List.foldl_append]
    simp only [List.foldl_cons, List.foldl_nil]
    cases e with
    | text d =>
      refine ⟨?_, ?_, fun i => ?_⟩
      · simp [parseStep, ht, specTextCat_append_one]
      · simp [parseStep, hm, toolDeltas_append, toolDeltas, List.filterMap, maxIndexOf_append_one,
          maxIndexOf, List.foldl_append]
      · simp [parseStep, hb i, toolDeltas_append, toolDeltas, List.filterMap, specBufs,
          hasIdx, List.any_append]
    | reasoning d =>
      refine ⟨?_, ?_, fun i => ?_⟩
      · simp [parseStep, ht, specTextCat_append_one]
      · simp [parseStep, hm, toolDeltas_append, toolDeltas, List.filterMap, maxIndexOf,
          List.foldl_append]
      · simp [parseStep, hb i, toolDeltas_append, toolDeltas, List.filterMap, specBufs,
          hasIdx, List.any_append]
    | thinking d =>
      refine ⟨?_, ?_, fun i => ?_⟩
      · simp [parseStep, ht, specTextCat_append_one]
      · simp [parseStep, hm, toolDeltas_append, toolDeltas, List.filterMap, maxIndexOf,
          List.foldl_append]
      · simp [parseStep, hb i, toolDeltas_append, toolDeltas, List.filterMap, specBufs,
          hasIdx, List.any_append]
    | toolResult =>
      refine ⟨?_, ?_, fun i => ?_⟩
      · simp [parseStep, ht, specTextCat_append_one]
      · simp [parseStep, hm, toolDeltas_append, toolDeltas, List.filterMap, maxIndexOf,
          List.foldl_append]
      · simp [parseStep, hb i, toolDeltas_append, toolDeltas, List.filterMap, specBufs,
          hasIdx, List.any_append]
    | done r =>
      refine ⟨?_, ?_, fun i => ?_⟩
      · simp [parseStep, ht, specTextCat_append_one]
      · simp [parseStep, hm, toolDeltas_append, toolDeltas, List.filterMap, maxIndexOf,
          List.foldl_append]
      · simp [parseStep, hb i, toolDeltas_append, toolDeltas, List.filterMap, specBufs,
          hasIdx, List.any_append]
    | error =>
      refine ⟨?_, ?_, fun i => ?_⟩
      · simp [parseStep, ht, specTextCat_append_one]
      · simp [parseStep, hm, toolDeltas_append, toolDeltas, List.filterMap, maxIndexOf,
          List.foldl_append]
      · simp [parseStep, hb i, toolDeltas_append, toolDeltas, List.filterMap, specBufs,
          hasIdx, List.any_append]
    | toolCall tc =>
      have htd : toolDeltas (xs ++ [Event.toolCall tc]) = toolDeltas xs ++ [tc] := by
        simp [toolDeltas_append, toolDeltas, List.filterMap]
      refine ⟨?_, ?_, fun i => ?_⟩
      · simp [parseStep, handleToolCall, ht, specTextCat_append_one]
      · simp only [parseStep, handleToolCall]
        rw [htd, maxIndexOf_append_one, hm]
      · simp only [parseStep, handleToolCall]
        rw [htd]
        by_cases hi : i = tc.index
        · rw [if_pos hi, hi, hb tc.index]
          have hmem : hasIdx (toolDeltas xs ++ [tc]) tc.index = true := by
            simp [hasIdx_append_one]
          simp only [specBufs]
          rw [if_pos hmem]
          by_cases hx : hasIdx (toolDeltas xs) tc.index = true
          · rw [if_pos hx]
            simp only [Option.getD_some]
            congr 1
            rw [specBucket_append_eq (toolDeltas xs) tc]
            by_cases hd : tc.argumentsDelta = ""
            · simp [hd, str_append_empty]
            · simp [hd]
          · rw [if_neg hx]
            simp only [Option.getD_none]
            congr 1
            rw [specBucket_append_eq (toolDeltas xs) tc,
              specBucket_empty (toolDeltas xs) tc.index (by simpa using hx)]
            by_cases hd : tc.argumentsDelta = ""
            · simp [hd, str_append_empty]
            · simp [hd]
        · rw [if_neg hi, hb i]
          rw [specBufs, specBufs, hasIdx_append_one,
            specBucket_append_ne _ _ _ (fun hh => hi hh.symm)]
          have : decide (tc.index = i) = false := by
            simp
            exact fun hh => hi hh.symm
          rw [this, Bool.or_false]

theorem le_foldl_max (tcs : List ToolCallDelta) (m : Int) :
    m ≤ tcs.foldl (fun a tc => if tc.index > a then tc.index else a) m := by
  induction tcs generalizing m with
  | nil => exact le_refl m
  | cons tc tcs ih =>
    refine le_trans ?_ (ih (if tc.index > m then tc.index else m))
    split
    · exact le_of_lt (by assumption)
    · exact le_refl m

theorem idx_le_foldl_max (tcs : List ToolCallDelta) (m : Int) (tc : ToolCallDelta)
    (h : tc ∈ tcs) :
    tc.index ≤ tcs.foldl (fun a tc => if tc.index > a then tc.index else a) m := by
  induction tcs generalizing m with
  | nil => cases h
  | cons hd tl ih =>
    rcases List.mem_cons.mp h with he | hm2
    · subst he
      refine le_trans ?_ (le_foldl_max tl (if tc.index > m then tc.index else m))
      split
      · exact le_refl _
      · exact le_of_not_lt (by assumption)
    · exact ih (if hd.index > m then hd.index else m) hm2

theorem maxIndexOf_nonneg (tcs : List ToolCallDelta) : (0 : Int) ≤ maxIndexOf tcs :=
  le_foldl_max tcs 0

theorem filterMap_support {α β : Type} (g : α → Option β) (p : α → Bool)
    (h : ∀ a, p a = false → g a = none) (l : List α) :
    (l.filter p).filterMap g = l.filterMap g := by
  induction l with
  | nil => rfl
  | cons a l ih =>
    by_cases hp : p a = true
    · rw [List.filter_cons_of_pos hp, List.filterMap_cons, List.filterMap_cons, ih]
    · have hpf : p a = false := by simpa using hp
      rw [List.filter_cons_of_neg (by simp [hpf]), ih, List.filterMap_cons, h a hpf]

theorem hasIdx_iff (tcs : List ToolCallDelta) (i : Int) :
    hasIdx tcs i = true ↔ ∃ tc ∈ tcs, tc.index = i := by
  simp [hasIdx]

theorem specToolBlocks_eq (tcs : List ToolCallDelta) :
    specToolBlocks tcs = (observedIndices tcs).filterMap (bucketBlock tcs) := rfl

theorem matchBufs_eq (tcs : List ToolCallDelta) (i : Int) :
    (match specBufs tcs i with
     | none => none
     | some buf =>
       if buf.id = "" then none
       else some (ContentBlock.toolCall
         { id := buf.id, name := buf.name, input := decodeArgs buf.argsBuf.data })) =
      bucketBlock tcs i := by
  unfold specBufs bucketBlock
  by_cases hx : hasIdx tcs i = true
  · rw [if_pos hx]
  · rw [if_neg hx, specBucket_empty _ _ (by simpa using hx)]
    simp

theorem bucketBlock_none (tcs : List ToolCallDelta) (i : Int)
    (h : hasIdx tcs i = false) : bucketBlock tcs i = none := by
  unfold bucketBlock
  rw [specBucket_empty _ _ h]
  simp

theorem range_filter_eq_observed (tcs : List ToolCallDelta)
    (hnn : ∀ tc ∈ tcs, 0 ≤ tc.index) :
    ((List.range ((maxIndexOf tcs).toNat + 1)).map (fun n : Nat => (n : Int))).filter
        (hasIdx tcs) = observedIndices tcs := by
  have hinj : Function.Injective (fun n : Nat => (n : Int)) := by
    intro a b hab
    simpa using hab
  have hnod1 : (((List.range ((maxIndexOf tcs).toNat + 1)).map
      (fun n : Nat => (n : Int))).filter (hasIdx tcs)).Nodup :=
    (((List.nodup_range _).map hinj)).filter _
  have hperm := List.perm_insertionSort (· ≤ ·) ((tcs.map (fun tc => tc.index)).dedup)
  have hnod2 : (observedIndices tcs).Nodup := by
    rw [observedIndices]
    exact hperm.nodup_iff.mpr (List.nodup_dedup _)
  have hpair : (((List.range ((maxIndexOf tcs).toNat + 1)).map
      (fun n : Nat => (n : Int))).filter (hasIdx tcs)).Pairwise (· < ·) :=
    (List.Pairwise.map (fun n : Nat => (n : Int))
      (fun a b h => by simpa using h) (List.pairwise_lt_range _)).filter _
  refine List.eq_of_perm_of_sorted ?_ (hpair.imp le_of_lt)
    (List.sorted_insertionSort (· ≤ ·) _)
  rw [List.perm_ext_iff_of_nodup hnod1 hnod2]
  intro a
  rw [List.mem_filter]
  have hobs : a ∈ observedIndices tcs ↔ a ∈ tcs.map (fun tc => tc.index) := by
    rw [observedIndices]
    rw [hperm.mem_iff]
    exact List.mem_dedup
  constructor
  · rintro ⟨_, hx⟩
    rw [hobs]
    obtain ⟨tc, htc, hidx⟩ := (hasIdx_iff tcs a).mp hx
    exact List.mem_map.mpr ⟨tc, htc, hidx⟩
  · intro hmem
    obtain ⟨tc, htc, hidx⟩ := List.mem_map.mp (hobs.mp hmem)
    refine ⟨?_, (hasIdx_iff tcs a).mpr ⟨tc, htc, hidx⟩⟩
    refine List.mem_map.mpr ⟨a.toNat, ?_, Int.toNat_of_nonneg ?_⟩
    · rw [List.mem_range]
      have h1 : 0 ≤ a := hidx ▸ hnn tc htc
      have h2 : a ≤ maxIndexOf tcs := hidx ▸ idx_le_foldl_max tcs 0 tc htc
      omega
    · exact hidx ▸ hnn tc htc

/-- C3 counterexample: a tool-call delta with negative index is stored by
`handleToolCall` but never emitted by `buildMessage` (the output loop runs
over `0..maxIndex` only), while the spec emits every bucket whose id
arrived: the built message has 0 blocks, the spec aggregate has 1. -/
theorem c3_counterexample :
    ((parseEvents [Event.toolCall
        (ToolCallDelta.mk (-1) "a" "f" "")]).message.contentBlocks.length = 0) ∧
    ((specAggregate [Event.toolCall
        (ToolCallDelta.mk (-1) "a" "f" "")]).contentBlocks.length = 1) :=
  ⟨rfl, rfl⟩

/-- C3: provided every tool-call delta carries a non-negative index, the
stream parser's built message equals the spec aggregate: deltas bucketed by
index, id and name the last non-empty values, argument fragments
concatenated and JSON-decoded (null input on failure), buckets in ascending
index order after an optional text block, id-less buckets dropped. -/
theorem c3_stream_aggregation (evs : List Event)
    (hnn : ∀ tc ∈ toolDeltas evs, 0 ≤ tc.index) :
    (parseEvents evs).message = specAggregate evs := by
  obtain ⟨ht, hm, hb⟩ := parse_state_inv evs
  have hbf : (List.foldl parseStep (initStreamState, "") evs).1.toolBufs =
      specBufs (toolDeltas evs) := funext hb
  unfold parseEvents specAggregate buildMessage
  simp only
  rw [ht, hm, hbf]
  congr 1
  rw [if_neg (not_lt.mpr (maxIndexOf_nonneg (toolDeltas evs)))]
  rw [List.filterMap_congr (fun n _ => matchBufs_eq (toolDeltas evs) (n : Int))]
  simp only [bind_pure_comp, List.map_eq_map]
  rw [← filterMap_support (bucketBlock (toolDeltas evs)) (hasIdx (toolDeltas evs))
    (bucketBlock_none (toolDeltas evs))]
  rw [range_filter_eq_observed (toolDeltas evs) hnn, specToolBlocks_eq]

/-- C3 witness: text plus two out-of-order tool-call deltas with
non-negative indices; the aggregate equality holds. -/
theorem c3_witness :
    (∀ tc ∈ toolDeltas [Event.text "hi",
        Event.toolCall (ToolCallDelta.mk 1 "b" "g" ""),
        Event.toolCall (ToolCallDelta.mk 0 "a" "f" "")], 0 ≤ tc.index) ∧
    (parseEvents [Event.text "hi",
        Event.toolCall (ToolCallDelta.mk 1 "b" "g" ""),
        Event.toolCall (ToolCallDelta.mk 0 "a" "f" "")]).message =
      specAggregate [Event.text "hi",
        Event.toolCall (ToolCallDelta.mk 1 "b" "g" ""),
        Event.toolCall (ToolCallDelta.mk 0 "a" "f" "")] :=
  ⟨by decide, c3_stream_aggregation _ (by decide)⟩

end LLMVerify
